import Mathlib

/-!
Verification development for the `mmdu` aggregation engine.

Shallow embedding of the core of the repository:
 * `src/policy.rs`   — record parsing (`Entry`, `NcduEntry`),
 * `src/usage/total.rs` — whole-tree accumulator `total::sum`,
 * `src/usage/depth.rs` — depth-bounded accumulator `depth::sum`,
 * `src/usage/ncdu.rs`  — tree builder `FSTree::insert` and the tree
   reducers `FSTree::to_total` / `FSTree::to_depth`.

Modelling conventions:
 * Byte strings are modelled as `String`; paths are modelled as their
   component lists (`List String`), where an absolute path contributes a
   leading `"/"` component exactly as `std::path::Path::iter` does.
 * Rust `u64`/`u32`/`usize` values are modelled as `Nat`.  No claim under
   consideration concerns wrap-around of additions, so additions are exact;
   numeric *parsing* keeps the `u64`/`u32` range checks of `str::parse`.
   The one place where machine-integer semantics matter to a claim is the
   `usize` subtraction `path_depth - prefix_depth` in `depth::sum`
   (src/usage/depth.rs:73): a record shallower than the scan root makes it
   underflow, which panics in a debug build (`cargo test` semantics).  That
   subtraction is therefore modelled with checked semantics, producing the
   distinguished outcome `RunError.panicked`, which represents a Rust panic
   (i.e. *not* an error value returned to the caller).
 * `HashMap`s that are only ever used point-wise are modelled as functions
   into `Option`; `BTreeMap`s whose iteration order matters (the children
   map of `FSTree`) are modelled as association lists kept sorted by key.
-/

namespace Mmdu

/-- Path components, as produced by `Path::iter()`:
`/data/test ↦ ["/", "data", "test"]`. -/
abbrev PathC := List String

/-! Kernel-computable string utilities (structural recursion over the
character list, so that every definition evaluates by `rfl`/`decide`).
They model the string operations the source uses: `bstr::split_str`,
`bstr::splitn_str`, `str::parse`, `str::starts_with`. -/

/-- Split `s` on every (leftmost, non-overlapping) occurrence of the
nonempty separator `sep`.  `fuel` is a structural-recursion bound; it is
always called with `fuel = s.length`, which suffices because every step
consumes at least one character. -/
def splitOnGo (sep : List Char) (fuel : Nat) (s acc : List Char) :
    List (List Char) :=
  match fuel with
  | 0 => [acc.reverse]
  | fuel + 1 =>
    match s with
    | [] => [acc.reverse]
    | c :: rest =>
      if sep.isPrefixOf (c :: rest) then
        acc.reverse :: splitOnGo sep fuel ((c :: rest).drop sep.length) []
      else
        splitOnGo sep fuel rest (c :: acc)

/-- Model of `bstr::split_str` (and `String::splitOn`) for a nonempty
separator. -/
def splitOnS (sep s : String) : List String :=
  match sep.toList with
  | [] => [s]
  | sl => (splitOnGo sl s.toList.length s.toList []).map (fun l => ⟨l⟩)

def joinWith (sep : String) : List String → String
  | [] => ""
  | [x] => x
  | x :: rest => x ++ sep ++ joinWith sep rest

/-- Model of Rust `splitn_str (n, sep)`: split on every occurrence of `sep`,
but at most into `n` pieces, the last piece keeping the remainder intact. -/
def splitnStr (n : Nat) (sep s : String) : List String :=
  let parts := splitOnS sep s
  if parts.length ≤ n then parts
  else parts.take (n - 1) ++ [joinWith sep (parts.drop (n - 1))]

def toNatGo : List Char → Nat → Option Nat
  | [], acc => some acc
  | c :: rest, acc =>
    if c.isDigit then toNatGo rest (acc * 10 + (c.toNat - 48)) else none

def startsWithS (p s : String) : Bool := p.toList.isPrefixOf s.toList

/-- Model of `bstr::to_path` composed with `Path::iter()` for the clean
(no `.`/`..` component) paths this program works with: an absolute path
yields a leading `"/"` component followed by the nonempty components. -/
def parsePath (s : String) : PathC :=
  if startsWithS "/" s then "/" :: (splitOnS "/" s).filter (· ≠ "")
  else (splitOnS "/" s).filter (· ≠ "")

/-- The integer grammar of `FromStr` for Rust's unsigned integers: an
optional leading `+` sign followed by one or more digits. -/
def toNatPlus (s : String) : Option Nat :=
  match s.toList with
  | '+' :: rest =>
    match rest with
    | [] => none
    | l => toNatGo l 0
  | [] => none
  | l => toNatGo l 0

/-- Model of `str::parse::<u64>` (optional leading `+`, digits,
range-checked: out-of-range values are an `Err`). -/
def parseU64 (s : String) : Option Nat :=
  match toNatPlus s with
  | some n => if n < 2 ^ 64 then some n else none
  | none => none

/-- Model of `str::parse::<u32>`. -/
def parseU32 (s : String) : Option Nat :=
  match toNatPlus s with
  | some n => if n < 2 ^ 32 then some n else none
  | none => none

/-- The accumulator of src/usage/mod.rs: `Acc { inodes, bytes }`. -/
structure Acc where
  inodes : Nat
  bytes : Nat
deriving DecidableEq, Repr

instance : Inhabited Acc := ⟨⟨0, 0⟩⟩

/-- `Acc::new(bytes)` — one object with the given size. -/
def Acc.new (bytes : Nat) : Acc := ⟨1, bytes⟩

/-- `impl AddAssign<u64> for Acc`: one more object, `bytes` more bytes. -/
def Acc.add (a : Acc) (bytes : Nat) : Acc := ⟨a.inodes + 1, a.bytes + bytes⟩

/-- Hash map from inode id (as text) to occurrence count, used point-wise. -/
abbrev HL := String → Option Nat

def emptyHL : HL := fun _ => none

def hlInsert (m : HL) (k : String) (c : Nat) : HL :=
  fun x => if x = k then some c else m x

/-! ### The compact record parser (`Entry` in src/policy.rs) -/

/-- `policy::Entry`: six metadata fields and the raw path text. -/
structure Entry where
  fields : List String
  pathRaw : String
deriving DecidableEq, Repr

namespace Entry

def INVALID : String := "invalid line in policy report"

/-- `impl TryFrom<&Vec<u8>> for Entry` (src/policy.rs:71-90): split the line
on every occurrence of `" -- "`; demand exactly two groups; split the first
group into at most 7 space-separated pieces and keep the first 6; demand
exactly 6 fields. -/
def tryFrom (line : String) : Except String Entry :=
  match splitOnS " -- " line with
  | [g0, g1] =>
    let fields := (splitnStr 7 " " g0).take 6
    if fields.length = 6 then .ok ⟨fields, g1⟩ else .error INVALID
  | _ => .error INVALID

/-- `Entry::inode_str` — field 0 (always valid UTF-8 in this model). -/
def inode_str (e : Entry) : Except String String := .ok (e.fields.getD 0 "")

/-- `Entry::bytes_str` — field 4. -/
def bytes_str (e : Entry) : Except String String := .ok (e.fields.getD 4 "")

/-- `Entry::bytes` — field 4 parsed as `u64`. -/
def bytes (e : Entry) : Except String Nat :=
  match parseU64 (e.fields.getD 4 "") with
  | some n => .ok n
  | none => .error "parsing bytes field"

/-- `Entry::nlink_str` — field 5. -/
def nlink_str (e : Entry) : Except String String := .ok (e.fields.getD 5 "")

/-- `Entry::path` — the raw path text as components (infallible here:
on Unix the `bstr → Path` conversion cannot fail). -/
def path (e : Entry) : Except String PathC := .ok (parsePath e.pathRaw)

end Entry

/-- A fully extracted compact record: exactly the data `total::sum` and
`depth::sum` read from an `Entry` (bytes parsed, nlink and inode as text,
path as components). -/
structure CRec where
  bytes : Nat
  nlink : String
  inode : String
  path : PathC
deriving DecidableEq, Repr

/-- The per-line extraction both flat accumulators perform: parse the line
into an `Entry` and read the `bytes`, `nlink`, `inode` and `path` fields.
Of these only `Entry::try_from` and `Entry::bytes` can fail. -/
def parseCompact (line : String) : Except String CRec := do
  let e ← Entry.tryFrom line
  let b ← e.bytes
  let n ← e.nlink_str
  let i ← e.inode_str
  let p ← e.path
  .ok ⟨b, n, i, p⟩

/-- Parse a whole report, stopping at the first bad line. -/
def parseReport : List String → Except String (List CRec)
  | [] => .ok []
  | l :: rest =>
    match parseCompact l with
    | .error e => .error e
    | .ok r =>
      match parseReport rest with
      | .error e => .error e
      | .ok rs => .ok (r :: rs)

/-- Failure outcomes of the accumulators.  `parseError` models an `Err`
value returned through `Result`; `panicked` models a Rust panic
(debug-build semantics of an arithmetic underflow) — an abnormal abort,
*not* an error value returned to the caller. -/
inductive RunError where
  | parseError (msg : String)
  | panicked (msg : String)
deriving DecidableEq, Repr

/-! ### `total::sum` (src/usage/total.rs:35-71) -/

/-- One step of the total accumulator: `count_links` counts every record;
otherwise `nlink == "1"` records always count, and other records count only
when their inode occurrence counter (incremented every time) reaches 1. -/
def accStep (countLinks : Bool) (st : Acc × HL) (r : CRec) : Acc × HL :=
  if countLinks then (st.1.add r.bytes, st.2)
  else if r.nlink = "1" then (st.1.add r.bytes, st.2)
  else
    let c := (st.2 r.inode).getD 0 + 1
    let hl := hlInsert st.2 r.inode c
    (if c = 1 then st.1.add r.bytes else st.1, hl)

namespace total

def sumGo (countLinks : Bool) (st : Acc × HL) : List String → Except RunError Acc
  | [] => .ok st.1
  | l :: rest =>
    match parseCompact l with
    | .error e => .error (.parseError e)
    | .ok r => sumGo countLinks (accStep countLinks st r) rest

/-- `total::sum`: stream the lines once, parsing each and folding
`accStep` from a default accumulator and an empty hard-link map. -/
def sum (lines : List String) (countLinks : Bool) : Except RunError Acc :=
  sumGo countLinks (default, emptyHL) lines

end total

/-! ### `depth::sum` (src/usage/depth.rs:50-113) -/

/-- `depth::DepthAcc`: a per-prefix accumulator with its own private
inode occurrence map. -/
structure DepthAcc where
  acc : Acc
  hard_links : HL

/-- `DepthAcc::new`. -/
def DepthAcc.new (bytes : Nat) : DepthAcc := ⟨Acc.new bytes, emptyHL⟩

/-- The `HashMap<PathBuf, DepthAcc>` of `depth::sum`, used point-wise. -/
abbrev SumsMap := PathC → Option DepthAcc

def emptySums : SumsMap := fun _ => none

def sumsInsert (m : SumsMap) (k : PathC) (v : DepthAcc) : SumsMap :=
  fun x => if x = k then some v else m x

/-- The `sums.entry(prefix).and_modify(…).or_insert_with(…)` transformation
of one prefix entry in `depth::sum` (src/usage/depth.rs:79-105): an existing
entry is modified (`and_modify`), a missing one created (`or_insert_with`). -/
def stepD (countLinks : Bool) (r : CRec) : Option DepthAcc → DepthAcc
  | some v =>
    if countLinks || r.nlink = "1" then { v with acc := v.acc.add r.bytes }
    else
      let c := (v.hard_links r.inode).getD 0 + 1
      { acc := if c = 1 then v.acc.add r.bytes else v.acc,
        hard_links := hlInsert v.hard_links r.inode c }
  | none =>
    if countLinks || r.nlink = "1" then DepthAcc.new r.bytes
    else { acc := Acc.new r.bytes, hard_links := hlInsert emptyHL r.inode 1 }

/-- The body of the per-prefix `sums.entry(prefix)…` update in
`depth::sum`: replace the entry at `pfx` by its `stepD` transform. -/
def depthUpdate (countLinks : Bool) (r : CRec) (sums : SumsMap) (pfx : PathC) :
    SumsMap :=
  sumsInsert sums pfx (stepD countLinks r (sums pfx))

/-- Process one parsed record: compute `path_suffix_depth` (the checked
`usize` subtraction — `panicked` on underflow, as a debug build does), then
update every prefix `path.take (prefixDepth + k)` for
`k = 0, …, min depth path_suffix_depth`. -/
def depthStepRec (pfxDepth depth : Nat) (countLinks : Bool) (sums : SumsMap)
    (r : CRec) : Except RunError SumsMap :=
  if r.path.length < pfxDepth then
    .error (.panicked "attempt to subtract with overflow")
  else
    -- `path_suffix_depth` is `r.path.length - pfxDepth`, inlined below
    .ok ((List.range (min depth (r.path.length - pfxDepth) + 1)).foldl
      (fun s k => depthUpdate countLinks r s (r.path.take (pfxDepth + k))) sums)

namespace depth

def sumGo (pfxDepth depth : Nat) (countLinks : Bool) (sums : SumsMap) :
    List String → Except RunError SumsMap
  | [] => .ok sums
  | l :: rest =>
    match parseCompact l with
    | .error e => .error (.parseError e)
    | .ok r =>
      match depthStepRec pfxDepth depth countLinks sums r with
      | .error e => .error e
      | .ok sums2 => sumGo pfxDepth depth countLinks sums2 rest

/-- `depth::sum`: stream the lines once, folding the per-record update, then
keep only the prefixes whose accumulated object count exceeds 1
(src/usage/depth.rs:109-112). -/
def sum (dir : PathC) (depth : Nat) (lines : List String) (countLinks : Bool) :
    Except RunError (PathC → Option Acc) :=
  (sumGo dir.length depth countLinks emptySums lines).map
    (fun sums p => (sums p).bind
      (fun v => if v.acc.inodes > 1 then some v.acc else none))

end depth

/-! ### Characterization machinery for the flat accumulators

`dedupKeep` is the reference description of hard-link deduplication: with
`count_links` set every record is kept; otherwise `nlink == "1"` records are
always kept, and any other record is kept exactly when its inode id has not
been seen before among the kept (`nlink ≠ "1"`) records. -/

def dedupKeep (countLinks : Bool) (seen : List String) : List CRec → List CRec
  | [] => []
  | r :: rest =>
    if countLinks || r.nlink = "1" then r :: dedupKeep countLinks seen rest
    else if seen.contains r.inode then dedupKeep countLinks seen rest
    else r :: dedupKeep countLinks (r.inode :: seen) rest

/-- The accumulator value described by a list of kept records: one object and
its byte size per record. -/
def accOfList (rs : List CRec) : Acc := ⟨rs.length, (rs.map CRec.bytes).sum⟩

/-- Correspondence between a hard-link occurrence map and the reference
`seen` list: an inode is in the map (with a positive counter) iff seen. -/
def HLseen (m : HL) (seen : List String) : Prop :=
  ∀ i, match m i with
    | some c => i ∈ seen ∧ 1 ≤ c
    | none => i ∉ seen

theorem hlSeen_empty : HLseen emptyHL [] := by
  intro i; simp [emptyHL]

theorem dedupKeep_countLinks (seen : List String) :
    ∀ l : List CRec, dedupKeep true seen l = l := by
  intro l
  induction l with
  | nil => rfl
  | cons r rest ih => simp [dedupKeep, ih]

/-- Folding `accStep` equals accumulating the `dedupKeep`-kept records. -/
theorem fold_accStep_eq (cl : Bool) :
    ∀ (l : List CRec) (a : Acc) (m : HL) (seen : List String),
      HLseen m seen →
      (l.foldl (accStep cl) (a, m)).1 =
        ⟨a.inodes + (dedupKeep cl seen l).length,
         a.bytes + ((dedupKeep cl seen l).map CRec.bytes).sum⟩ := by
  intro l
  induction l with
  | nil => intro a m seen _; simp [dedupKeep]
  | cons r rest ih =>
    intro a m seen hms
    by_cases hcl : cl = true ∨ r.nlink = "1"
    · have hc : (cl || decide (r.nlink = "1")) = true := by
        rcases hcl with h | h <;> simp [h]
      have : accStep cl (a, m) r = (a.add r.bytes, m) := by
        rcases hcl with h | h <;> simp [accStep, h]
      rw [List.foldl_cons, this, ih _ _ seen hms]
      have hk : dedupKeep cl seen (r :: rest) =
          r :: dedupKeep cl seen rest := by
        rcases hcl with h | h <;> simp [dedupKeep, h]
      simp [hk, Acc.add]
      constructor <;> omega
    · push_neg at hcl
      obtain ⟨hcl, hn1⟩ := hcl
      have hclf : cl = false := by
        cases cl <;> simp_all
      subst hclf
      have hstep : accStep false (a, m) r =
          (if (m r.inode).getD 0 + 1 = 1 then a.add r.bytes else a,
           hlInsert m r.inode ((m r.inode).getD 0 + 1)) := by
        simp [accStep, hn1]
      by_cases hseen : r.inode ∈ seen
      · -- already seen: the map holds a positive counter, nothing is added
        obtain ⟨c, hmv, hc⟩ : ∃ c, m r.inode = some c ∧ 1 ≤ c := by
          have hmi := hms r.inode
          cases hmv : m r.inode with
          | none => rw [hmv] at hmi; exact absurd hseen hmi
          | some c => rw [hmv] at hmi; exact ⟨c, rfl, hmi.2⟩
        have hms2 : HLseen (hlInsert m r.inode (c + 1)) seen := by
          intro j
          by_cases hj : j = r.inode
          · subst hj; simp only [hlInsert, if_pos rfl]
            exact ⟨hseen, by omega⟩
          · simpa only [hlInsert, if_neg hj] using hms j
        rw [List.foldl_cons, hstep, hmv]
        simp only [Option.getD_some]
        rw [if_neg (by omega)]
        rw [ih _ _ seen hms2]
        simp [dedupKeep, hn1, hseen]
      · -- unseen: counter becomes 1, the record is kept, inode becomes seen
        have hnone : m r.inode = none := by
          have hmi := hms r.inode
          cases hmv : m r.inode with
          | none => rfl
          | some c => rw [hmv] at hmi; exact absurd hmi.1 hseen
        have hms2 : HLseen (hlInsert m r.inode 1) (r.inode :: seen) := by
          intro j
          by_cases hj : j = r.inode
          · subst hj; simp [hlInsert]
          · have hmj := hms j
            cases hmv : m j with
            | none =>
              rw [hmv] at hmj
              simp only [hlInsert, if_neg hj, hmv]
              simp [List.mem_cons, hj, hmj]
            | some c =>
              rw [hmv] at hmj
              simp only [hlInsert, if_neg hj, hmv]
              exact ⟨List.mem_cons_of_mem _ hmj.1, hmj.2⟩
        rw [List.foldl_cons, hstep, hnone]
        simp only [Option.getD_none, if_pos rfl]
        rw [ih _ _ _ hms2]
        simp [dedupKeep, hn1, hseen, Acc.add]
        constructor <;> omega

/-- `total::sum` factors into parsing the whole report and folding
`accStep` over the records, stopping at the first bad line. -/
theorem total_sumGo_eq (cl : Bool) :
    ∀ (lines : List String) (st : Acc × HL),
      total.sumGo cl st lines =
        match parseReport lines with
        | .ok rs => .ok (rs.foldl (accStep cl) st).1
        | .error e => .error (.parseError e) := by
  intro lines
  induction lines with
  | nil => intro st; rfl
  | cons l rest ih =>
    intro st
    cases hpc : parseCompact l with
    | error e => simp only [total.sumGo, parseReport, hpc]
    | ok r =>
      simp only [total.sumGo, parseReport, hpc]
      rw [ih]
      cases hpr : parseReport rest with
      | error e => simp only [hpr]
      | ok rs => simp only [hpr, List.foldl_cons]

theorem dedupKeep_cons_one {r : CRec} (seen : List String) (l : List CRec)
    (h1 : r.nlink = "1") :
    dedupKeep false seen (r :: l) = r :: dedupKeep false seen l := by
  simp [dedupKeep, h1]

theorem dedupKeep_cons_skip {r : CRec} {seen : List String} (l : List CRec)
    (h1 : r.nlink ≠ "1") (hs : r.inode ∈ seen) :
    dedupKeep false seen (r :: l) = dedupKeep false seen l := by
  simp [dedupKeep, h1, hs]

theorem dedupKeep_cons_new {r : CRec} {seen : List String} (l : List CRec)
    (h1 : r.nlink ≠ "1") (hs : r.inode ∉ seen) :
    dedupKeep false seen (r :: l) = r :: dedupKeep false (r.inode :: seen) l := by
  simp [dedupKeep, h1, hs]

theorem filter_cons_inode_ne {r : CRec} {i : String} (l : List CRec)
    (hri : r.inode ≠ i) :
    (r :: l).filter (fun x => x.inode == i) = l.filter (fun x => x.inode == i) := by
  rw [List.filter_cons, if_neg (by simp [hri])]

/-- Once an inode is seen, later `nlink ≠ "1"` records with that inode are
never kept. -/
theorem dedupKeep_filter_seen :
    ∀ (l : List CRec) (seen : List String) (i : String),
      (∀ r ∈ l, r.inode = i → r.nlink ≠ "1") → i ∈ seen →
      (dedupKeep false seen l).filter (fun r => r.inode == i) = [] := by
  intro l
  induction l with
  | nil => intro seen i _ _; rfl
  | cons r rest ih =>
    intro seen i hn hi
    have hrest : ∀ x ∈ rest, x.inode = i → x.nlink ≠ "1" :=
      fun x hx => hn x (List.mem_cons_of_mem _ hx)
    by_cases h1 : r.nlink = "1"
    · have hri : r.inode ≠ i := fun he => hn r (List.mem_cons_self _ _) he h1
      rw [dedupKeep_cons_one seen rest h1, filter_cons_inode_ne _ hri]
      exact ih seen i hrest hi
    · by_cases hs : r.inode ∈ seen
      · rw [dedupKeep_cons_skip rest h1 hs]
        exact ih seen i hrest hi
      · have hri : r.inode ≠ i := fun he => hs (he ▸ hi)
        rw [dedupKeep_cons_new rest h1 hs, filter_cons_inode_ne _ hri]
        exact ih (r.inode :: seen) i hrest (List.mem_cons_of_mem _ hi)

/-- First occurrence wins: among the kept records, a hard-linked inode is
represented by exactly the first record carrying it. -/
theorem dedupKeep_filter_firstocc :
    ∀ (l : List CRec) (seen : List String) (i : String),
      (∀ r ∈ l, r.inode = i → r.nlink ≠ "1") → i ∉ seen →
      (dedupKeep false seen l).filter (fun r => r.inode == i) =
        (l.filter (fun r => r.inode == i)).take 1 := by
  intro l
  induction l with
  | nil => intro seen i _ _; rfl
  | cons r rest ih =>
    intro seen i hn hi
    have hrest : ∀ x ∈ rest, x.inode = i → x.nlink ≠ "1" :=
      fun x hx => hn x (List.mem_cons_of_mem _ hx)
    by_cases h1 : r.nlink = "1"
    · have hri : r.inode ≠ i := fun he => hn r (List.mem_cons_self _ _) he h1
      rw [dedupKeep_cons_one seen rest h1, filter_cons_inode_ne _ hri,
        filter_cons_inode_ne _ hri]
      exact ih seen i hrest hi
    · by_cases hs : r.inode ∈ seen
      · have hri : r.inode ≠ i := fun he => hi (he ▸ hs)
        rw [dedupKeep_cons_skip rest h1 hs, filter_cons_inode_ne _ hri]
        exact ih seen i hrest hi
      · by_cases hri : r.inode = i
        · subst hri
          rw [dedupKeep_cons_new rest h1 hs]
          rw [List.filter_cons, if_pos (by simp), List.filter_cons, if_pos (by simp)]
          rw [List.take_succ_cons, List.take_zero]
          rw [dedupKeep_filter_seen rest _ _ hrest (List.mem_cons_self _ _)]
        · rw [dedupKeep_cons_new rest h1 hs, filter_cons_inode_ne _ hri,
            filter_cons_inode_ne _ hri]
          exact ih (r.inode :: seen) i hrest
            (by simp only [List.mem_cons]; rintro (h | h); exact hri h.symm; exact hi h)

theorem Acc_default : (default : Acc) = ⟨0, 0⟩ := rfl

/-- Extract the result map of a successful `depth::sum` run. -/
def depthResult (dir : PathC) (d : Nat) (lines : List String) (cl : Bool) :
    PathC → Option Acc :=
  ((depth.sum dir d lines cl).toOption).getD (fun _ => none)

/-! ### Claim C5 — total accumulator hard-link semantics -/

/-- **C5**: in `total::sum`, count-links mode keeps every record (each adds
its size and one object); otherwise `nlink == "1"` records always count and
an `nlink ≠ "1"` record counts only on the first occurrence of its inode id,
so the kept sub-list for such an inode is exactly the first record carrying
it (`S` once with dedup, `4×S` without for an inode appearing 4 times). -/
theorem c5_total_hardlink_semantics :
    ∀ (lines : List String) (cl : Bool) (a : Acc),
      total.sum lines cl = .ok a →
      ∃ rs, parseReport lines = .ok rs ∧
        a = accOfList (dedupKeep cl [] rs) ∧
        (cl = true → dedupKeep cl [] rs = rs) ∧
        (cl = false → ∀ i, (∀ r ∈ rs, r.inode = i → r.nlink ≠ "1") →
          (dedupKeep false [] rs).filter (fun r => r.inode == i) =
            (rs.filter (fun r => r.inode == i)).take 1) := by
  intro lines cl a h
  rw [total.sum, total_sumGo_eq] at h
  cases hpr : parseReport lines with
  | error e => rw [hpr] at h; simp at h
  | ok rs =>
    rw [hpr] at h
    refine ⟨rs, rfl, ?_, ?_, ?_⟩
    · have ha : (rs.foldl (accStep cl) (default, emptyHL)).1 = a :=
        Except.ok.inj h
      rw [← ha, fold_accStep_eq cl rs default emptyHL [] hlSeen_empty]
      simp [accOfList, Acc_default]
    · intro hcl; subst hcl; exact dedupKeep_countLinks [] rs
    · intro _ i hi
      exact dedupKeep_filter_firstocc rs [] i hi (by simp)

def wTotalLines : List String :=
  [ "1 1 0  4096 1 -- /data/test"
  , "1 1 0  1024 3 -- /data/test/foo"
  , "1 1 0  1024 3 -- /data/test/bar"
  , "1 1 0  1024 3 -- /data/test/baz"
  , "2 1 0  1024 2 -- /data/test/other" ]

theorem c5_total_hardlink_semantics_witness :
    ∃ rs, parseReport wTotalLines = .ok rs ∧
      (⟨3, 6144⟩ : Acc) = accOfList (dedupKeep false [] rs) ∧
      ((false : Bool) = true → dedupKeep false [] rs = rs) ∧
      ((false : Bool) = false → ∀ i, (∀ r ∈ rs, r.inode = i → r.nlink ≠ "1") →
        (dedupKeep false [] rs).filter (fun r => r.inode == i) =
          (rs.filter (fun r => r.inode == i)).take 1) :=
  c5_total_hardlink_semantics wTotalLines false ⟨3, 6144⟩ (by rfl)

/-! ### Claim C2 — the concrete depth-1 scenario -/

def c2Lines : List String :=
  [ "1 0 0  4096 1 -- /d"
  , "4 0 0  1024 4 -- /d/foo"
  , "4 0 0  1024 4 -- /d/a/foo"
  , "4 0 0  1024 4 -- /d/b/bar" ]

/-- **C2, counterexample**: on the four records of the claimed scenario,
`depth::sum /d 1 dedup` does *not* map `/d` to `(3, 6144)` (and does not map
`/d/a` to `(2, 5120)`): at prefix `/d` inode `4` is deduplicated to its first
occurrence, giving `(2, 5120)`. -/
theorem c2_counterexample :
    ¬ ∃ f, depth.sum ["/", "d"] 1 c2Lines false = .ok f ∧
        f ["/", "d"] = some ⟨3, 6144⟩ ∧ f ["/", "d", "a"] = some ⟨2, 5120⟩ := by
  intro h
  obtain ⟨f, hf, h1, _⟩ := h
  have h0 : depth.sum ["/", "d"] 1 c2Lines false =
      .ok (depthResult ["/", "d"] 1 c2Lines false) := rfl
  rw [hf] at h0
  rw [Except.ok.inj h0] at h1
  have h2 : depthResult ["/", "d"] 1 c2Lines false ["/", "d"] =
      some ⟨2, 5120⟩ := rfl
  rw [h2] at h1
  simp at h1

/-- **C2, amended**: the scenario's actual result: `/d ↦ (2, 5120)` (the
directory record plus the *first* occurrence of inode 4) and `/d/a` absent
(its only entry accumulates a single object and is dropped by the `> 1`
filter). -/
theorem c2_amended_scenario :
    depth.sum ["/", "d"] 1 c2Lines false =
      .ok (depthResult ["/", "d"] 1 c2Lines false) ∧
    depthResult ["/", "d"] 1 c2Lines false ["/", "d"] = some ⟨2, 5120⟩ ∧
    depthResult ["/", "d"] 1 c2Lines false ["/", "d", "a"] = none :=
  ⟨rfl, rfl, rfl⟩

/-! ### Per-prefix characterization of `depth::sum` -/

/-- Record `r` contributes to prefix `p`: the inner loop of `depth::sum`
reaches `p` iff `p` is the truncation of `r`'s path to some length between
the root depth and root depth + maximum depth. -/
def hitsAt (pfxD dep : Nat) (p : PathC) (r : CRec) : Prop :=
  pfxD ≤ p.length ∧ p.length ≤ pfxD + dep ∧ p.length ≤ r.path.length ∧
    p = r.path.take p.length

instance (pfxD dep : Nat) (p : PathC) (r : CRec) :
    Decidable (hitsAt pfxD dep p r) := by
  unfold hitsAt; infer_instance

/-- The records of `rs` (in order) that contribute to prefix `p`. -/
def hitList (pfxD dep : Nat) (p : PathC) (rs : List CRec) : List CRec :=
  rs.filter (fun r => decide (hitsAt pfxD dep p r))

theorem take_len_of_le {l : PathC} {m : Nat} (h : m ≤ l.length) :
    (l.take m).length = m := by
  rw [List.length_take]; omega

theorem range_fold_noHit (cl : Bool) (r : CRec) (pfxD : Nat) :
    ∀ (n : Nat) (sums : SumsMap) (p : PathC),
      (∀ k, k ≤ n → p ≠ r.path.take (pfxD + k)) →
      ((List.range (n + 1)).foldl
        (fun s k => depthUpdate cl r s (r.path.take (pfxD + k))) sums) p
        = sums p := by
  intro n
  induction n with
  | zero =>
    intro sums p h
    rw [show List.range 1 = [0] from rfl, List.foldl_cons, List.foldl_nil]
    show sumsInsert _ _ _ p = sums p
    unfold sumsInsert
    rw [if_neg (h 0 (Nat.le_refl 0))]
  | succ n ih =>
    intro sums p h
    rw [List.range_succ, List.foldl_append, List.foldl_cons, List.foldl_nil]
    show sumsInsert _ _ _ p = sums p
    unfold sumsInsert
    rw [if_neg (h (n + 1) (Nat.le_refl _))]
    exact ih sums p (fun k hk => h k (Nat.le_succ_of_le hk))

theorem range_fold_hit (cl : Bool) (r : CRec) (pfxD : Nat) :
    ∀ (n : Nat) (sums : SumsMap) (p : PathC) (k : Nat),
      pfxD + n ≤ r.path.length → k ≤ n → p = r.path.take (pfxD + k) →
      ((List.range (n + 1)).foldl
        (fun s k => depthUpdate cl r s (r.path.take (pfxD + k))) sums) p
        = some (stepD cl r (sums p)) := by
  intro n
  induction n with
  | zero =>
    intro sums p k _ hk hp
    have hk0 : k = 0 := Nat.le_zero.mp hk
    subst hk0
    rw [show List.range 1 = [0] from rfl, List.foldl_cons, List.foldl_nil]
    show sumsInsert _ _ _ p = _
    unfold sumsInsert
    rw [if_pos hp, ← hp]
  | succ n ih =>
    intro sums p k hb hk hp
    rw [List.range_succ, List.foldl_append, List.foldl_cons, List.foldl_nil]
    show sumsInsert _ _ _ p = _
    by_cases hkn : k = n + 1
    · subst hkn
      unfold sumsInsert
      have hGp : ((List.range (n + 1)).foldl
          (fun s k => depthUpdate cl r s (r.path.take (pfxD + k))) sums) p
            = sums p := by
        apply range_fold_noHit
        intro j hj he
        have hlp : p.length = pfxD + (n + 1) := by
          rw [hp, take_len_of_le hb]
        have hlj : (r.path.take (pfxD + j)).length = pfxD + j :=
          take_len_of_le (by omega)
        rw [he] at hlp
        omega
      rw [if_pos hp, ← hp, hGp]
    · have hkle : k ≤ n := by omega
      unfold sumsInsert
      rw [if_neg ?_, ih sums p k (by omega) hkle hp]
      · intro he
        have h1 : p.length = pfxD + k := by
          rw [hp, take_len_of_le (by omega)]
        have h2 : (r.path.take (pfxD + (n + 1))).length = pfxD + (n + 1) :=
          take_len_of_le hb
        rw [he] at h1
        omega

/-- Effect of one record on the prefix map, point-wise: exactly the hit
prefixes are replaced by their `stepD` transform. -/
theorem depthStepRec_char (pfxD dep : Nat) (cl : Bool) (sums : SumsMap)
    (r : CRec) (h : pfxD ≤ r.path.length) :
    depthStepRec pfxD dep cl sums r =
      .ok (fun p => if hitsAt pfxD dep p r
                    then some (stepD cl r (sums p)) else sums p) := by
  unfold depthStepRec
  rw [if_neg (by omega)]
  congr 1
  funext p
  have hmd : min dep (r.path.length - pfxD) ≤ dep := Nat.min_le_left _ _
  have hmp : min dep (r.path.length - pfxD) ≤ r.path.length - pfxD :=
    Nat.min_le_right _ _
  by_cases hp : hitsAt pfxD dep p r
  · rw [if_pos hp]
    obtain ⟨h1, h2, h3, h4⟩ := hp
    apply range_fold_hit cl r pfxD _ sums p (p.length - pfxD) (by omega)
    · exact Nat.le_min.mpr ⟨by omega, by omega⟩
    · rw [Nat.add_sub_cancel' h1]; exact h4
  · rw [if_neg hp]
    apply range_fold_noHit
    intro k hk he
    apply hp
    have hkb : pfxD + k ≤ r.path.length := by omega
    have hlen : (r.path.take (pfxD + k)).length = pfxD + k := take_len_of_le hkb
    have hpl : p.length = pfxD + k := by rw [he, hlen]
    exact ⟨by omega, by omega, by omega, by rw [hpl, ← he]⟩

/-- A successful `depth::sumGo` run parses every line and ends with, at each
prefix `p`, the records hitting `p` folded (in input order) over the
initial entry. -/
theorem depth_sumGo_char (pfxD dep : Nat) (cl : Bool) :
    ∀ (lines : List String) (sums out : SumsMap),
      depth.sumGo pfxD dep cl sums lines = .ok out →
      ∃ rs, parseReport lines = .ok rs ∧ (∀ r ∈ rs, pfxD ≤ r.path.length) ∧
        ∀ p, out p = (hitList pfxD dep p rs).foldl
          (fun o r => some (stepD cl r o)) (sums p) := by
  intro lines
  induction lines with
  | nil =>
    intro sums out h
    have he : sums = out := Except.ok.inj h
    exact ⟨[], rfl, by simp, fun p => by rw [← he]; rfl⟩
  | cons l rest ih =>
    intro sums out h
    rw [depth.sumGo] at h
    cases hpc : parseCompact l with
    | error e => rw [hpc] at h; simp at h
    | ok r =>
      rw [hpc] at h
      replace h : (match depthStepRec pfxD dep cl sums r with
        | .error e => (.error e : Except RunError SumsMap)
        | .ok sums2 => depth.sumGo pfxD dep cl sums2 rest) = .ok out := h
      by_cases hlen : r.path.length < pfxD
      · rw [show depthStepRec pfxD dep cl sums r =
            .error (.panicked "attempt to subtract with overflow") from by
          unfold depthStepRec; rw [if_pos hlen]] at h
        exact Except.noConfusion h
      · push_neg at hlen
        rw [depthStepRec_char pfxD dep cl sums r hlen] at h
        replace h : depth.sumGo pfxD dep cl
            (fun p => if hitsAt pfxD dep p r
                      then some (stepD cl r (sums p)) else sums p) rest
            = .ok out := h
        obtain ⟨rs, hpr, hlen2, hout⟩ := ih _ out h
        refine ⟨r :: rs, by simp [parseReport, hpc, hpr], ?_, ?_⟩
        · intro x hx
          rcases List.mem_cons.mp hx with hx | hx
          · subst hx; exact hlen
          · exact hlen2 x hx
        · intro p
          rw [hout p]
          unfold hitList
          rw [List.filter_cons]
          by_cases hhit : hitsAt pfxD dep p r
          · simp [hhit, List.foldl_cons]
          · simp [hhit]

theorem stepD_some (cl : Bool) (r : CRec) (a : Acc) (m : HL) :
    stepD cl r (some ⟨a, m⟩) =
      ⟨(accStep cl (a, m) r).1, (accStep cl (a, m) r).2⟩ := by
  by_cases hcl : cl = true <;> by_cases h1 : r.nlink = "1" <;>
    simp [stepD, accStep, hcl, h1]

theorem stepD_none (cl : Bool) (r : CRec) :
    stepD cl r none =
      ⟨(accStep cl (⟨0, 0⟩, emptyHL) r).1,
       (accStep cl (⟨0, 0⟩, emptyHL) r).2⟩ := by
  by_cases hcl : cl = true <;> by_cases h1 : r.nlink = "1" <;>
    simp [stepD, accStep, hcl, h1, DepthAcc.new, Acc.new, Acc.add, emptyHL]

theorem optFold_some (cl : Bool) :
    ∀ (l : List CRec) (a : Acc) (m : HL),
      l.foldl (fun o r => some (stepD cl r o)) (some ⟨a, m⟩) =
        some ⟨(l.foldl (accStep cl) (a, m)).1,
              (l.foldl (accStep cl) (a, m)).2⟩ := by
  intro l
  induction l with
  | nil => intro a m; rfl
  | cons r t ih =>
    intro a m
    rw [List.foldl_cons, List.foldl_cons, stepD_some, ih]

theorem optFold_cons (cl : Bool) (r : CRec) (t : List CRec) :
    (r :: t).foldl (fun o r => some (stepD cl r o)) none =
      some ⟨((r :: t).foldl (accStep cl) (⟨0, 0⟩, emptyHL)).1,
            ((r :: t).foldl (accStep cl) (⟨0, 0⟩, emptyHL)).2⟩ := by
  rw [List.foldl_cons, List.foldl_cons, stepD_none, optFold_some]

/-- Master characterization of `depth::sum`: at each prefix the result is
the `accStep`-fold of the hit records, kept only when the object count
exceeds 1. -/
theorem depth_sum_char :
    ∀ (dir : PathC) (dep : Nat) (lines : List String) (cl : Bool)
      (f : PathC → Option Acc),
      depth.sum dir dep lines cl = .ok f →
      ∃ rs, parseReport lines = .ok rs ∧
        (∀ r ∈ rs, dir.length ≤ r.path.length) ∧
        ∀ p, f p =
          match hitList dir.length dep p rs with
          | [] => none
          | h :: t =>
            (fun a => if 1 < a.inodes then some a else none)
              (((h :: t).foldl (accStep cl) (⟨0, 0⟩, emptyHL)).1) := by
  intro dir dep lines cl f hsum
  unfold depth.sum at hsum
  cases hgo : depth.sumGo dir.length dep cl emptySums lines with
  | error e => rw [hgo] at hsum; exact Except.noConfusion hsum
  | ok out =>
    rw [hgo] at hsum
    replace hsum : Except.ok (ε := RunError) (fun p => (out p).bind
        (fun v => if v.acc.inodes > 1 then some v.acc else none)) = .ok f := hsum
    have hf : f = fun p => (out p).bind
        (fun v => if v.acc.inodes > 1 then some v.acc else none) :=
      (Except.ok.inj hsum).symm
    obtain ⟨rs, hpr, hlen, hout⟩ := depth_sumGo_char _ _ _ lines emptySums out hgo
    refine ⟨rs, hpr, hlen, ?_⟩
    intro p
    rw [hf]
    show (out p).bind _ = _
    rw [hout p]
    cases hh : hitList dir.length dep p rs with
    | nil => rfl
    | cons h t =>
      simp only [emptySums]
      rw [optFold_cons]
      rfl

def wDepthLines : List String :=
  [ "1 1 0  4096 1 -- /data/test"
  , "1 1 0  1024 5 -- /data/test/foo"
  , "1 1 0  1024 5 -- /data/test/bar"
  , "2 1 0  1024 2 -- /data/test/other"
  , "1 1 0  4096 1 -- /data/test/a"
  , "1 1 0  1024 5 -- /data/test/a/foo"
  , "1 1 0  1024 5 -- /data/test/a/bar"
  , "1 1 0  4096 1 -- /data/test/b"
  , "1 1 0  1024 5 -- /data/test/b/foo"
  , "2 1 0  1024 2 -- /data/test/b/other" ]

/-! ### Claim C4 — per-prefix scoping of hard-link deduplication -/

/-- **C4**: in `depth::sum` with deduplication on, every prefix `p` of the
result carries the `dedupKeep`-rollup of exactly the records reaching `p`
(its own self-contained view), and within that rollup a hard-linked inode is
represented by precisely the *first* record carrying it that reaches `p` —
so an inode under two sibling prefixes is counted once in each, and once in
total in every common ancestor. -/
theorem c4_depth_scoping :
    ∀ (dir : PathC) (dep : Nat) (lines : List String) (f : PathC → Option Acc),
      depth.sum dir dep lines false = .ok f →
      ∃ rs, parseReport lines = .ok rs ∧
        ∀ p a, f p = some a →
          a = accOfList (dedupKeep false [] (hitList dir.length dep p rs)) ∧
          ∀ i, (∀ r ∈ rs, r.inode = i → r.nlink ≠ "1") →
            (dedupKeep false [] (hitList dir.length dep p rs)).filter
                (fun r => r.inode == i)
              = ((hitList dir.length dep p rs).filter
                  (fun r => r.inode == i)).take 1 := by
  intro dir dep lines f hsum
  obtain ⟨rs, hpr, _, hchar⟩ := depth_sum_char dir dep lines false f hsum
  refine ⟨rs, hpr, ?_⟩
  intro p a hfa
  constructor
  · rw [hchar p] at hfa
    cases hh : hitList dir.length dep p rs with
    | nil => rw [hh] at hfa; exact Option.noConfusion hfa
    | cons h t =>
      rw [hh] at hfa
      by_cases hgt :
          1 < (((h :: t).foldl (accStep false) (⟨0, 0⟩, emptyHL)).1).inodes
      · have ha : a = ((h :: t).foldl (accStep false) (⟨0, 0⟩, emptyHL)).1 := by
          simp only [if_pos hgt] at hfa
          exact (Option.some.inj hfa).symm
        rw [ha, ← hh, fold_accStep_eq false _ _ emptyHL [] hlSeen_empty]
        simp [accOfList]
      · simp only [if_neg hgt] at hfa
        exact Option.noConfusion hfa
  · intro i hi
    apply dedupKeep_filter_firstocc _ [] i ?_ (by simp)
    intro r hr
    exact hi r (List.mem_of_mem_filter hr)

theorem c4_depth_scoping_witness :
    ∃ rs, parseReport wDepthLines = .ok rs ∧
      ∀ p a, depthResult ["/", "data", "test"] 1 wDepthLines false p = some a →
        a = accOfList (dedupKeep false [] (hitList 3 1 p rs)) ∧
        ∀ i, (∀ r ∈ rs, r.inode = i → r.nlink ≠ "1") →
          (dedupKeep false [] (hitList 3 1 p rs)).filter
              (fun r => r.inode == i)
            = ((hitList 3 1 p rs).filter (fun r => r.inode == i)).take 1 :=
  c4_depth_scoping ["/", "data", "test"] 1 wDepthLines
    (depthResult ["/", "data", "test"] 1 wDepthLines false) (by rfl)

/-! ### Claim C10 — own-path registration in the intermediate map -/

/-- Extract the intermediate prefix map of a successful `depth::sum` run
(the `sums` hash map before the `> 1` filter). -/
def depthSumsResult (dir : PathC) (d : Nat) (lines : List String) (cl : Bool) :
    SumsMap :=
  ((depth.sumGo dir.length d cl emptySums lines).toOption).getD emptySums

def c10Lines : List String :=
  [ "5 0 0  7 4 -- /d/a/x"
  , "5 0 0  9 4 -- /d/a" ]

/-- **C10, counterexample**: a record is *not* in general the first
contribution to its own-path entry.  With root `/d`, depth 1, dedup on, and
records `/d/a/x` then `/d/a` (same inode 5, nlink 4, sizes 7 and 9): the
entry for `/d/a` already exists before the `/d/a` record arrives (created by
the deeper record), and after both records its accumulator is `(1, 7)` —
the bytes of the *other* record; the own record contributed nothing. -/
theorem c10_counterexample :
    ((depthSumsResult ["/", "d"] 1 ["5 0 0  7 4 -- /d/a/x"] false)
        ["/", "d", "a"]).isSome = true ∧
    ((depthSumsResult ["/", "d"] 1 c10Lines false) ["/", "d", "a"]).map
        DepthAcc.acc = some ⟨1, 7⟩ :=
  ⟨rfl, rfl⟩

/-- **C10, amended**: the per-level loop runs up to and including the
record's own depth, so every record at depth ≤ D below the root registers
its own full path as a key of the intermediate map (though not necessarily
as that entry's first contribution), and an intermediate entry reaches the
final result exactly when its accumulated object count exceeds 1. -/
theorem c10_amended :
    ∀ (dir : PathC) (dep : Nat) (lines : List String) (cl : Bool)
      (out : SumsMap),
      depth.sumGo dir.length dep cl emptySums lines = .ok out →
      ∃ rs, parseReport lines = .ok rs ∧
        (∀ r ∈ rs, dir.length ≤ r.path.length →
          r.path.length ≤ dir.length + dep → (out r.path).isSome = true) ∧
        depth.sum dir dep lines cl =
          .ok (fun p => (out p).bind
            (fun v => if v.acc.inodes > 1 then some v.acc else none)) := by
  intro dir dep lines cl out hgo
  obtain ⟨rs, hpr, _, hout⟩ := depth_sumGo_char dir.length dep cl lines _ out hgo
  refine ⟨rs, hpr, ?_, ?_⟩
  · intro r hr h1 h2
    have hmem : r ∈ hitList dir.length dep r.path rs := by
      apply List.mem_filter.mpr
      refine ⟨hr, ?_⟩
      simp only [decide_eq_true_eq]
      exact ⟨h1, h2, Nat.le_refl _, (List.take_length r.path).symm⟩
    rw [hout r.path]
    cases hh : hitList dir.length dep r.path rs with
    | nil => rw [hh] at hmem; exact absurd hmem (List.not_mem_nil r)
    | cons h t =>
      simp only [emptySums]
      rw [optFold_cons]
      rfl
  · rw [depth.sum, hgo]
    rfl

theorem c10_amended_witness :
    ∃ rs, parseReport wDepthLines = .ok rs ∧
      (∀ r ∈ rs, 3 ≤ r.path.length → r.path.length ≤ 3 + 1 →
        ((depthSumsResult ["/", "data", "test"] 1 wDepthLines false)
          r.path).isSome = true) ∧
      depth.sum ["/", "data", "test"] 1 wDepthLines false =
        .ok (fun p =>
          ((depthSumsResult ["/", "data", "test"] 1 wDepthLines false) p).bind
            (fun v => if v.acc.inodes > 1 then some v.acc else none)) :=
  c10_amended ["/", "data", "test"] 1 wDepthLines false
    (depthSumsResult ["/", "data", "test"] 1 wDepthLines false) (by rfl)

/-! ### Claim C6 — no panics, failures as returned errors -/

/-- Debug-build `u64` addition: panics when the sum leaves `u64` range. -/
def addU64 (a b : Nat) : Except RunError Nat :=
  if a + b < 2 ^ 64 then .ok (a + b)
  else .error (.panicked "attempt to add with overflow")

/-- `impl AddAssign<u64> for Acc` (src/usage/mod.rs) under debug
semantics: both field additions are checked. -/
def Acc.addChk (a : Acc) (bytes : Nat) : Except RunError Acc :=
  match addU64 a.inodes 1 with
  | .error e => .error e
  | .ok i =>
    match addU64 a.bytes bytes with
    | .error e => .error e
    | .ok b => .ok ⟨i, b⟩

/-- `accStep` (the loop body of total.rs:39-68) under debug semantics:
the `sum += bytes` additions and the `*c += 1` occurrence-counter
increment are checked. -/
def accStepChk (countLinks : Bool) (st : Acc × HL) (r : CRec) :
    Except RunError (Acc × HL) :=
  if countLinks then (st.1.addChk r.bytes).map (fun a => (a, st.2))
  else if r.nlink = "1" then (st.1.addChk r.bytes).map (fun a => (a, st.2))
  else
    match st.2 r.inode with
    | some c0 =>
      match addU64 c0 1 with
      | .error e => .error e
      | .ok c =>
        if c = 1 then
          (st.1.addChk r.bytes).map (fun a => (a, hlInsert st.2 r.inode c))
        else .ok (st.1, hlInsert st.2 r.inode c)
    | none =>
      (st.1.addChk r.bytes).map (fun a => (a, hlInsert st.2 r.inode 1))

namespace total

def sumChkGo (countLinks : Bool) (st : Acc × HL) :
    List String → Except RunError Acc
  | [] => .ok st.1
  | l :: rest =>
    match parseCompact l with
    | .error e => .error (.parseError e)
    | .ok r =>
      match accStepChk countLinks st r with
      | .error e => .error e
      | .ok st2 => sumChkGo countLinks st2 rest

end total

/-- `stepD` (the per-prefix entry update of depth.rs:79-105) under debug
semantics. -/
def stepDChk (countLinks : Bool) (r : CRec) :
    Option DepthAcc → Except RunError DepthAcc
  | some v =>
    if countLinks || r.nlink = "1" then
      (v.acc.addChk r.bytes).map (fun a => { v with acc := a })
    else
      match v.hard_links r.inode with
      | some c0 =>
        match addU64 c0 1 with
        | .error e => .error e
        | .ok c =>
          if c = 1 then
            (v.acc.addChk r.bytes).map (fun a =>
              { acc := a, hard_links := hlInsert v.hard_links r.inode c })
          else
            .ok { acc := v.acc,
                  hard_links := hlInsert v.hard_links r.inode c }
      | none =>
        (v.acc.addChk r.bytes).map (fun a =>
          { acc := a, hard_links := hlInsert v.hard_links r.inode 1 })
  | none =>
    if countLinks || r.nlink = "1" then .ok (DepthAcc.new r.bytes)
    else .ok { acc := Acc.new r.bytes,
               hard_links := hlInsert emptyHL r.inode 1 }

def depthUpdateChk (countLinks : Bool) (r : CRec) (sums : SumsMap)
    (pfx : PathC) : Except RunError SumsMap :=
  (stepDChk countLinks r (sums pfx)).map (fun v => sumsInsert sums pfx v)

/-- Short-circuiting fold for the per-record prefix loop. -/
def chkFold (f : SumsMap → Nat → Except RunError SumsMap) :
    List Nat → SumsMap → Except RunError SumsMap
  | [], s => .ok s
  | k :: ks, s =>
    match f s k with
    | .error e => .error e
    | .ok s2 => chkFold f ks s2

/-- `depthStepRec` under debug semantics: the `usize` subtraction check
as before, and every prefix update checked. -/
def depthStepRecChk (pfxDepth depth : Nat) (countLinks : Bool)
    (sums : SumsMap) (r : CRec) : Except RunError SumsMap :=
  if r.path.length < pfxDepth then
    .error (.panicked "attempt to subtract with overflow")
  else
    chkFold (fun s k => depthUpdateChk countLinks r s
        (r.path.take (pfxDepth + k)))
      (List.range (min depth (r.path.length - pfxDepth) + 1)) sums

namespace depth

def sumChkGo (pfxDepth depth : Nat) (countLinks : Bool) (sums : SumsMap) :
    List String → Except RunError SumsMap
  | [] => .ok sums
  | l :: rest =>
    match parseCompact l with
    | .error e => .error (.parseError e)
    | .ok r =>
      match depthStepRecChk pfxDepth depth countLinks sums r with
      | .error e => .error e
      | .ok sums2 => sumChkGo pfxDepth depth countLinks sums2 rest

end depth

/-- `policy::NcduEntry`: seven metadata fields and the raw path text. -/
structure NcduEntry where
  fields : List String
  pathRaw : String
deriving DecidableEq, Repr

namespace NcduEntry

/-- `impl TryFrom<&Vec<u8>> for NcduEntry` (src/policy.rs:157-188): split on
every `" -- "`, demand exactly two groups, split the first into at most 8
space-separated pieces, drop empty pieces, demand exactly 7 fields. -/
def tryFrom (line : String) : Except String NcduEntry :=
  match splitOnS " -- " line with
  | [g0, g1] =>
    let fields := (splitnStr 8 " " g0).filter (· ≠ "")
    if fields.length = 7 then .ok ⟨fields, g1⟩
    else .error ("incorrect number of fields (" ++ toString fields.length
      ++ "): " ++ line)
  | gs =>
    .error ("no \" -- \" separator (splits in " ++ toString gs.length
      ++ "): " ++ line)

def inode_str (e : NcduEntry) : Except String String := .ok (e.fields.getD 0 "")

def inode (e : NcduEntry) : Except String Nat :=
  match parseU64 (e.fields.getD 0 "") with
  | some n => .ok n
  | none => .error "parsing inode field"

def mode_str (e : NcduEntry) : Except String String := .ok (e.fields.getD 3 "")

def nlink_str (e : NcduEntry) : Except String String := .ok (e.fields.getD 4 "")

def nlink (e : NcduEntry) : Except String Nat :=
  match parseU32 (e.fields.getD 4 "") with
  | some n => .ok n
  | none => .error "parsing NLINK field"

def file_size_str (e : NcduEntry) : Except String String :=
  .ok (e.fields.getD 5 "")

def file_size (e : NcduEntry) : Except String Nat :=
  match parseU64 (e.fields.getD 5 "") with
  | some n => .ok n
  | none => .error "parsing FILE_SIZE field"

def kb_allocated_str (e : NcduEntry) : Except String String :=
  .ok (e.fields.getD 6 "")

def kb_allocated (e : NcduEntry) : Except String Nat :=
  match parseU64 (e.fields.getD 6 "") with
  | some n => .ok n
  | none => .error "parsing KB_ALLOCATED field"

def path (e : NcduEntry) : Except String PathC := .ok (parsePath e.pathRaw)

end NcduEntry

/-! ### Claim C3 — separator occurrences inside the path -/

/-- **C3, counterexample**: a line whose metadata fields are well-formed but
whose path contains the literal `" -- "` makes `split_str` yield more than
two groups, so both `Entry::try_from` and `NcduEntry::try_from` *fail*
instead of recovering the path. -/
theorem c3_counterexample :
    (Entry.tryFrom "1 1 0  4096 1 -- /data/a -- b").isOk = false ∧
    (NcduEntry.tryFrom
        "1 0 0  drwx------ 1 4096 0 -- /data/a -- b").isOk = false :=
  ⟨rfl, rfl⟩

/-- **C3, amended**: parsing succeeds only when the line splits into exactly
two groups on `" -- "` (i.e. the separator occurs exactly once); a path
containing the separator text is rejected, and on success the recovered path
is exactly the text after the single separator occurrence. -/
theorem c3_amended :
    (∀ (line : String) (e : Entry), Entry.tryFrom line = .ok e →
      (splitOnS " -- " line).length = 2 ∧
      e.pathRaw = (splitOnS " -- " line).getD 1 "") ∧
    (∀ (line : String) (e : NcduEntry), NcduEntry.tryFrom line = .ok e →
      (splitOnS " -- " line).length = 2 ∧
      e.pathRaw = (splitOnS " -- " line).getD 1 "") := by
  constructor
  · intro line e h
    rcases hgs : splitOnS " -- " line with _ | ⟨g0, _ | ⟨g1, _ | ⟨g2, t⟩⟩⟩
    · rw [Entry.tryFrom, hgs] at h; exact Except.noConfusion h
    · rw [Entry.tryFrom, hgs] at h; exact Except.noConfusion h
    · rw [Entry.tryFrom, hgs] at h
      replace h : (if ((splitnStr 7 " " g0).take 6).length = 6
          then Except.ok (⟨(splitnStr 7 " " g0).take 6, g1⟩ : Entry)
          else .error Entry.INVALID) = .ok e := h
      by_cases hf : ((splitnStr 7 " " g0).take 6).length = 6
      · rw [if_pos hf] at h
        have he : e = ⟨(splitnStr 7 " " g0).take 6, g1⟩ :=
          (Except.ok.inj h).symm
        subst he
        exact ⟨rfl, rfl⟩
      · rw [if_neg hf] at h; exact Except.noConfusion h
    · rw [Entry.tryFrom, hgs] at h; exact Except.noConfusion h
  · intro line e h
    rcases hgs : splitOnS " -- " line with _ | ⟨g0, _ | ⟨g1, _ | ⟨g2, t⟩⟩⟩
    · rw [NcduEntry.tryFrom, hgs] at h; exact Except.noConfusion h
    · rw [NcduEntry.tryFrom, hgs] at h; exact Except.noConfusion h
    · rw [NcduEntry.tryFrom, hgs] at h
      replace h : (if ((splitnStr 8 " " g0).filter (· ≠ "")).length = 7
          then Except.ok (⟨(splitnStr 8 " " g0).filter (· ≠ ""), g1⟩ : NcduEntry)
          else .error ("incorrect number of fields ("
            ++ toString ((splitnStr 8 " " g0).filter (· ≠ "")).length
            ++ "): " ++ line)) = .ok e := h
      by_cases hf : ((splitnStr 8 " " g0).filter (· ≠ "")).length = 7
      · rw [if_pos hf] at h
        have he : e = ⟨(splitnStr 8 " " g0).filter (· ≠ ""), g1⟩ :=
          (Except.ok.inj h).symm
        subst he
        exact ⟨rfl, rfl⟩
      · rw [if_neg hf] at h; exact Except.noConfusion h
    · rw [NcduEntry.tryFrom, hgs] at h; exact Except.noConfusion h

theorem c3_amended_witness :
    ((splitOnS " -- " "1 1 0  4096 1 -- /data/test").length = 2 ∧
      (Entry.mk ["1", "1", "0", "", "4096", "1"] "/data/test").pathRaw =
        (splitOnS " -- " "1 1 0  4096 1 -- /data/test").getD 1 "") ∧
    ((splitOnS " -- " "1 0 0  drwx------ 1 4096 0 -- /data/test").length = 2 ∧
      (NcduEntry.mk ["1", "0", "0", "drwx------", "1", "4096", "0"]
          "/data/test").pathRaw =
        (splitOnS " -- "
          "1 0 0  drwx------ 1 4096 0 -- /data/test").getD 1 "") :=
  ⟨c3_amended.1 "1 1 0  4096 1 -- /data/test"
      ⟨["1", "1", "0", "", "4096", "1"], "/data/test"⟩ (by rfl),
   c3_amended.2 "1 0 0  drwx------ 1 4096 0 -- /data/test"
      ⟨["1", "0", "0", "drwx------", "1", "4096", "0"], "/data/test"⟩ (by rfl)⟩

/-! ### The tree builder and reducers (src/usage/ncdu.rs) -/

/-- `config::ByteMode`. -/
inductive ByteMode where
  | FileSize
  | KBAllocated
deriving DecidableEq, Repr

/-- The slice of `config::Config` the tree reducers read. -/
structure Config where
  byte_mode : ByteMode
  count_links : Bool
deriving DecidableEq, Repr

/-- `ncdu::Data` (src/usage/ncdu.rs:63-69). -/
structure Data where
  file_size : Nat
  kb_allocated : Nat
  nlink : Nat
  inode : Nat
deriving DecidableEq, Repr

instance : Inhabited Data := ⟨⟨0, 0, 0, 0⟩⟩

/-- `impl TryFrom<&NcduEntry> for Data` (src/usage/ncdu.rs:142-160):
`inode` is read only when `nlink > 1`, else 0. -/
def Data.tryFrom (e : NcduEntry) : Except String Data :=
  match e.file_size with
  | .error err => .error err
  | .ok file_size =>
    match e.kb_allocated with
    | .error err => .error err
    | .ok kb_allocated =>
      match e.nlink with
      | .error err => .error err
      | .ok nlink =>
        match (if nlink > 1 then e.inode else .ok 0) with
        | .error err => .error err
        | .ok inode => .ok ⟨file_size, kb_allocated, nlink, inode⟩

/-! `FSTree`/`FSObj` (src/usage/ncdu.rs:162-178): a tree node carries its
own absolute path, its own `Data`, and a children map from child absolute
path to `Dir` subtree or `Node` leaf.  The `BTreeMap` is modelled as an
association list kept sorted by key (`FSChildren`), giving the same
canonical form and the same in-order iteration. -/
mutual
/-- Child entry: `Dir(subtree)` or `Node(leaf data)`. -/
inductive FSObj where
  | Dir : FSTree → FSObj
  | Node : Data → FSObj
inductive FSTree where
  | mk : PathC → Data → FSChildren → FSTree
inductive FSChildren where
  | nil : FSChildren
  | cons : PathC → FSObj → FSChildren → FSChildren
end

def FSTree.path : FSTree → PathC
  | .mk p _ _ => p

def FSTree.data : FSTree → Data
  | .mk _ d _ => d

def FSTree.children : FSTree → FSChildren
  | .mk _ _ c => c

/-- Character order by code point (the byte order `OsStr`/`PathBuf` use,
restricted to the ASCII paths at hand). -/
def charLtB (a b : Char) : Bool := decide (a.val.toNat < b.val.toNat)

/-- Lexicographic order on strings as character lists. -/
def strLtL : List Char → List Char → Bool
  | [], [] => false
  | [], _ :: _ => true
  | _ :: _, [] => false
  | a :: as, b :: bs =>
    if charLtB a b then true
    else if charLtB b a then false
    else strLtL as bs

def strLt (a b : String) : Bool := strLtL a.toList b.toList

/-- Lexicographic order on paths, component-wise (`PathBuf`'s `Ord`). -/
def keyLt : PathC → PathC → Bool
  | [], [] => false
  | [], _ :: _ => true
  | _ :: _, [] => false
  | a :: as, b :: bs =>
    if strLt a b then true
    else if strLt b a then false
    else keyLt as bs

/-- `BTreeMap` lookup. -/
def childLookup (k : PathC) : FSChildren → Option FSObj
  | .nil => none
  | .cons k1 v rest => if k = k1 then some v else childLookup k rest

/-- `BTreeMap` insert-or-replace, keeping the list sorted by key (existing
keys keep their position). -/
def childUpsert (k : PathC) (v : FSObj) : FSChildren → FSChildren
  | .nil => .cons k v .nil
  | .cons k1 v1 rest =>
    if k = k1 then .cons k1 v rest
    else if keyLt k k1 then .cons k v (.cons k1 v1 rest)
    else .cons k1 v1 (childUpsert k v rest)

/-- A record as `FSTree::insert` consumes it: path components, the textual
mode field, and the parsed `Data`. -/
structure NRec where
  path : PathC
  mode : String
  data : Data
deriving DecidableEq, Repr

/-- `Path::parent()` for the absolute paths this program works with:
`None` for the root `/` (and for an empty path), else drop the last
component. -/
def parentPath (p : PathC) : Option PathC :=
  if p.length ≤ 1 then none else some p.dropLast

/-- The value stored for a direct child by rule 2 of `FSTree::insert`
(src/usage/ncdu.rs:228-265), given the current entry at the child key:
an existing `Dir` child gets its data updated in place, an existing `Node`
child gets its data overwritten, a missing child is created as a fresh
`Dir` subtree (directory mode) or `Node` leaf. -/
def dcVal (r : NRec) : Option FSObj → FSObj
  | some (.Dir (.mk cp _ cc)) => .Dir (.mk cp r.data cc)
  | some (.Node _) => .Node r.data
  | none =>
    if startsWithS "d" r.mode then .Dir (.mk r.path r.data .nil)
    else .Node r.data

/-- The direct-child update of rule 2 of `FSTree::insert`:
`entry(key).and_modify(…).or_insert(value)`. -/
def insertDirect (r : NRec) (tc : FSChildren) : FSChildren :=
  childUpsert r.path (dcVal r (childLookup r.path tc)) tc

/-- The descent of rule 3 of `FSTree::insert` (src/usage/ncdu.rs:267-280),
with the recursive insert abstracted into `f`: fetch the child at the
routing key (a fresh placeholder directory if absent), fail on a `Node`
(`FSObj::insert`, src/usage/ncdu.rs:168-175), else recurse and store the
updated subtree back. -/
def descend (f : FSTree → Except String FSTree) (key tp : PathC)
    (td : Data) (tc : FSChildren) : Except String FSTree :=
  match (childLookup key tc).getD (.Dir (.mk key default .nil)) with
  | .Node _ => .error "insert into node"
  | .Dir subtree =>
    (f subtree).map (fun t2 => .mk tp td (childUpsert key (.Dir t2) tc))

/-- One layer of `FSTree::insert` (src/usage/ncdu.rs:201-286), with the
recursive descent abstracted into `recur` (`none` models exhausted fuel).
`FSObj::insert` (src/usage/ncdu.rs:168-175) is inlined at the descent site:
a `Dir` child receives the recursive insert, a `Node` child is an error. -/
def insertGo (recur : Option (FSTree → Except String FSTree))
    (tpath : PathC) (tdata : Data) (tchildren : FSChildren)
    (r : NRec) : Except String FSTree :=
  if tpath = r.path then
    -- rule 1: overwrite this node's own data
    .ok (.mk tpath r.data tchildren)
  else
    match parentPath r.path with
    | none => .error "path has no parent"
    | some par =>
      if tpath = par then
        -- rule 2: direct child
        .ok (.mk tpath tdata (insertDirect r tchildren))
      else
        -- rule 3: descend one level, creating a placeholder if absent
        match recur with
        | none => .error "recursion limit"
        | some f => descend f (r.path.take (tpath.length + 1)) tpath tdata tchildren

/-- `FSTree::insert` (src/usage/ncdu.rs:201-286).  `fuel` bounds the
descent purely to make the recursion structural; the public wrapper
`FSTree.insert` passes `r.path.length + 1`, which is enough for every tree
whose stored subtree paths equal their keys (all trees this program builds),
so the `"recursion limit"` branch is unreachable there. -/
def FSTree.insertAux (fuel : Nat) (t : FSTree) (r : NRec) :
    Except String FSTree :=
  match fuel, t with
  | 0, .mk tp td tc => insertGo none tp td tc r
  | fuel + 1, .mk tp td tc =>
    insertGo (some (fun sub => FSTree.insertAux fuel sub r)) tp td tc r

def FSTree.insert (t : FSTree) (r : NRec) : Except String FSTree :=
  FSTree.insertAux (r.path.length + 1) t r

/-- `FSObj::insert` (src/usage/ncdu.rs:168-175) as a standalone function:
route into a `Dir`, fail on a `Node`. -/
def FSObj.insert (fuel : Nat) (o : FSObj) (r : NRec) : Except String FSObj :=
  match o with
  | .Dir subtree =>
    match FSTree.insertAux fuel subtree r with
    | .error e => .error e
    | .ok t2 => .ok (.Dir t2)
  | .Node _ => .error "insert into node"

/-- `FSTree::insert` taking an `NcduEntry`: extract path, `Data` and mode
(the fallible prelude of src/usage/ncdu.rs:202-211), then route. -/
def FSTree.insertE (t : FSTree) (e : NcduEntry) : Except String FSTree :=
  match e.path with
  | .error err => .error err
  | .ok p =>
    match Data.tryFrom e with
    | .error err => .error err
    | .ok d =>
      match e.mode_str with
      | .error err => .error err
      | .ok m => FSTree.insert t ⟨p, m, d⟩

namespace ncdu

def sumGo (t : FSTree) : List String → Except String FSTree
  | [] => .ok t
  | l :: rest =>
    match NcduEntry.tryFrom l with
    | .error e => .error e
    | .ok entry =>
      match FSTree.insertE t entry with
      | .error e => .error e
      | .ok t2 => sumGo t2 rest

/-- `ncdu::sum` (src/usage/ncdu.rs:42-61): fold the parsed lines into an
initially empty tree rooted at `root`. -/
def sum (root : PathC) (lines : List String) : Except String FSTree :=
  sumGo (.mk root default .nil) lines

end ncdu

/-! #### Tree reducers (src/usage/ncdu.rs:343-421) -/

abbrev HL64 := Nat → Option Nat

def hl64Empty : HL64 := fun _ => none

def hl64Insert (m : HL64) (k c : Nat) : HL64 :=
  fun x => if x = k then some c else m x

/-- `Data::sum_total` (src/usage/ncdu.rs:72-101): pick the byte value by
mode; `nlink == 1` always adds; otherwise dedup through the optional
hard-link map (`None` means count every occurrence). -/
def Data.sum_total (d : Data) (st : Acc × Option HL64) (bm : ByteMode) :
    Acc × Option HL64 :=
  let value := match bm with
    | .FileSize => d.file_size
    | .KBAllocated => d.kb_allocated
  if d.nlink = 1 then (st.1.add value, st.2)
  else
    match st.2 with
    | some hl =>
      let c := (hl d.inode).getD 0 + 1
      (if c = 1 then st.1.add value else st.1, some (hl64Insert hl d.inode c))
    | none => (st.1.add value, st.2)

mutual
/-- `FSTree::sum_total_rec` (src/usage/ncdu.rs:350-369): pre-order — own
data first, then each child in key order. -/
def FSTree.sum_total_rec (t : FSTree) (st : Acc × Option HL64)
    (bm : ByteMode) : Acc × Option HL64 :=
  match t with
  | .mk _ d children => FSChildren.sum_total_fold children (Data.sum_total d st bm) bm
def FSChildren.sum_total_fold (cs : FSChildren) (st : Acc × Option HL64)
    (bm : ByteMode) : Acc × Option HL64 :=
  match cs with
  | .nil => st
  | .cons _ o rest =>
    match o with
    | .Dir sub =>
      FSChildren.sum_total_fold rest (FSTree.sum_total_rec sub st bm) bm
    | .Node d =>
      FSChildren.sum_total_fold rest (Data.sum_total d st bm) bm
end

/-- `FSTree::to_total` (src/usage/ncdu.rs:343-348).  Note the faithful
`config.count_links.then(HashMap::new)`: the dedup map exists exactly when
`count_links` is set. -/
def FSTree.to_total (t : FSTree) (config : Config) : Acc :=
  let hard_links : Option HL64 :=
    if config.count_links then some hl64Empty else none
  (t.sum_total_rec (⟨0, 0⟩, hard_links) config.byte_mode).1

/-- `Data::sum_depth` (src/usage/ncdu.rs:103-122): the per-prefix loop body
is commented out in the source, so the function returns `sums` unchanged. -/
def Data.sum_depth (_d : Data) (sums : SumsMap) (_path : PathC)
    (_pfxDepth _maxDepth : Nat) (_config : Config) : SumsMap :=
  sums

mutual
/-- `FSTree::sum_depth_rec` (src/usage/ncdu.rs:389-421). -/
def FSTree.sum_depth_rec (t : FSTree) (sums : SumsMap)
    (pfxDepth maxDepth : Nat) (config : Config) : SumsMap :=
  match t with
  | .mk p d children =>
    FSChildren.sum_depth_fold children p
      (Data.sum_depth d sums p pfxDepth maxDepth config) pfxDepth maxDepth config
def FSChildren.sum_depth_fold (cs : FSChildren) (selfPath : PathC)
    (sums : SumsMap) (pfxDepth maxDepth : Nat) (config : Config) : SumsMap :=
  match cs with
  | .nil => sums
  | .cons _ o rest =>
    match o with
    | .Dir sub =>
      FSChildren.sum_depth_fold rest selfPath
        (FSTree.sum_depth_rec sub sums pfxDepth maxDepth config)
        pfxDepth maxDepth config
    | .Node d =>
      FSChildren.sum_depth_fold rest selfPath
        (Data.sum_depth d sums selfPath pfxDepth maxDepth config)
        pfxDepth maxDepth config
end

/-- `FSTree::to_depth` (src/usage/ncdu.rs:371-387): run the (stubbed)
depth reduction from an empty map, then keep entries with object count
`> 1`. -/
def FSTree.to_depth (t : FSTree) (dir : PathC) (maxDepth : Nat)
    (config : Config) : PathC → Option Acc :=
  let sums := t.sum_depth_rec emptySums dir.length maxDepth config
  fun p => (sums p).bind (fun v => if v.acc.inodes > 1 then some v.acc else none)

/-! ### Claim C1 — tree/flat equivalence of the reducers -/

def wNcduLines : List String :=
  [ "1 0 0  drwx------ 1 4096 0 -- /data/test"
  , "2 0 0  drwxr-xr-x 1 4096 0 -- /data/test/a"
  , "3 0 0  -rw-r--r-- 1 1024 0 -- /data/test/a/baz"
  , "4 0 0  -rw-r--r-- 4 1024 0 -- /data/test/bar"
  , "4 0 0  -rw-r--r-- 4 1024 0 -- /data/test/foo"
  , "4 0 0  -rw-r--r-- 4 1024 0 -- /data/test/a/foo"
  , "4 0 0  -rw-r--r-- 4 1024 0 -- /data/test/b/bar"
  , "5 0 0  drwxr-xr-x 1 4096 0 -- /data/test/b" ]

/-- The same record set in the compact (`Entry`) form consumed by the flat
accumulators. -/
def wCompactLines : List String :=
  [ "1 0 0  4096 1 -- /data/test"
  , "2 0 0  4096 1 -- /data/test/a"
  , "3 0 0  1024 1 -- /data/test/a/baz"
  , "4 0 0  1024 4 -- /data/test/bar"
  , "4 0 0  1024 4 -- /data/test/foo"
  , "4 0 0  1024 4 -- /data/test/a/foo"
  , "4 0 0  1024 4 -- /data/test/b/bar"
  , "5 0 0  4096 1 -- /data/test/b" ]

def wTree : FSTree :=
  ((ncdu.sum ["/", "data", "test"] wNcduLines).toOption).getD
    (.mk ["/", "data", "test"] default .nil)

/-- **C1, divergence**: on the repository's own example record set the tree
reducers do *not* agree with the flat accumulators.
`to_total` inverts the hard-link counting mode
(`config.count_links.then(HashMap::new)` creates the dedup map exactly when
`count_links` asks for counting every occurrence): with `count_links = true`
the tree gives the deduplicated `(5, 14336)` while `total::sum` gives
`(8, 17408)`, and vice versa with `count_links = false`.
`to_depth` returns the empty map — `Data::sum_depth`'s accumulation body is
commented out in the source — while `depth::sum` returns `(5, 14336)` at the
root; the repository's own test `ncdu_to_depth` expects the nonempty
result. -/
theorem c1_tree_flat_divergence :
    ncdu.sum ["/", "data", "test"] wNcduLines = .ok wTree ∧
    wTree.to_total ⟨.FileSize, true⟩ = ⟨5, 14336⟩ ∧
    total.sum wCompactLines true = .ok ⟨8, 17408⟩ ∧
    wTree.to_total ⟨.FileSize, false⟩ = ⟨8, 17408⟩ ∧
    total.sum wCompactLines false = .ok ⟨5, 14336⟩ ∧
    wTree.to_depth ["/", "data", "test"] 1 ⟨.FileSize, false⟩
      ["/", "data", "test"] = none ∧
    depth.sum ["/", "data", "test"] 1 wCompactLines false =
      .ok (depthResult ["/", "data", "test"] 1 wCompactLines false) ∧
    depthResult ["/", "data", "test"] 1 wCompactLines false
      ["/", "data", "test"] = some ⟨5, 14336⟩ := by
  refine ⟨?_, ?_, ?_, ?_, ?_, ?_, ?_, ?_⟩ <;> rfl

/-! ### Claim C8 — the drop-singleton filter -/

/-- **C8**: neither `depth::sum` nor `FSTree::to_depth` ever emits a prefix
whose accumulated object count is ≤ 1: both filter on `acc.inodes > 1`. -/
theorem c8_drop_singleton :
    (∀ (dir : PathC) (dep : Nat) (lines : List String) (cl : Bool)
      (f : PathC → Option Acc) (p : PathC) (a : Acc),
      depth.sum dir dep lines cl = .ok f → f p = some a → 2 ≤ a.inodes) ∧
    (∀ (t : FSTree) (dir : PathC) (dep : Nat) (config : Config)
      (p : PathC) (a : Acc),
      t.to_depth dir dep config p = some a → 2 ≤ a.inodes) := by
  constructor
  · intro dir dep lines cl f p a hsum hfp
    unfold depth.sum at hsum
    cases hgo : depth.sumGo dir.length dep cl emptySums lines with
    | error e => rw [hgo] at hsum; exact Except.noConfusion hsum
    | ok out =>
      rw [hgo] at hsum
      replace hsum : Except.ok (ε := RunError) (fun p => (out p).bind
          (fun v => if v.acc.inodes > 1 then some v.acc else none))
            = .ok f := hsum
      rw [← Except.ok.inj hsum] at hfp
      replace hfp : (out p).bind
          (fun v => if v.acc.inodes > 1 then some v.acc else none)
            = some a := hfp
      cases hout : out p with
      | none => rw [hout] at hfp; exact Option.noConfusion hfp
      | some v =>
        rw [hout] at hfp
        by_cases hgt : v.acc.inodes > 1
        · replace hfp : (if v.acc.inodes > 1 then some v.acc else none)
              = some a := hfp
          rw [if_pos hgt] at hfp
          rw [← Option.some.inj hfp]
          omega
        · replace hfp : (if v.acc.inodes > 1 then some v.acc else none)
              = some a := hfp
          rw [if_neg hgt] at hfp
          exact Option.noConfusion hfp
  · intro t dir dep config p a hfp
    unfold FSTree.to_depth at hfp
    cases hout : t.sum_depth_rec emptySums dir.length dep config p with
    | none => rw [hout] at hfp; exact Option.noConfusion hfp
    | some v =>
      rw [hout] at hfp
      by_cases hgt : v.acc.inodes > 1
      · replace hfp : (if v.acc.inodes > 1 then some v.acc else none)
            = some a := hfp
        rw [if_pos hgt] at hfp
        rw [← Option.some.inj hfp]
        omega
      · replace hfp : (if v.acc.inodes > 1 then some v.acc else none)
            = some a := hfp
        rw [if_neg hgt] at hfp
        exact Option.noConfusion hfp

theorem c8_drop_singleton_witness : 2 ≤ (Acc.mk 5 14336).inodes :=
  c8_drop_singleton.1 ["/", "data", "test"] 1 wDepthLines false
    (depthResult ["/", "data", "test"] 1 wDepthLines false)
    ["/", "data", "test"] ⟨5, 14336⟩ rfl rfl

/-! #### Branch-unfolding lemmas for `FSTree.insertAux` -/

theorem insertAux_zero (tp : PathC) (td : Data) (tc : FSChildren)
    (r : NRec) :
    FSTree.insertAux 0 (.mk tp td tc) r = insertGo none tp td tc r := rfl

theorem insertAux_succ (fuel : Nat) (tp : PathC) (td : Data)
    (tc : FSChildren) (r : NRec) :
    FSTree.insertAux (fuel + 1) (.mk tp td tc) r =
      insertGo (some (fun sub => FSTree.insertAux fuel sub r))
        tp td tc r := rfl

theorem insertGo_rule1 (recur : Option (FSTree → Except String FSTree))
    {tp : PathC} (td : Data) (tc : FSChildren) {r : NRec} (h : tp = r.path) :
    insertGo recur tp td tc r = .ok (.mk tp r.data tc) := by
  unfold insertGo
  rw [if_pos h]

theorem insertGo_noparent (recur : Option (FSTree → Except String FSTree))
    {tp : PathC} (td : Data) (tc : FSChildren) {r : NRec} (hne : tp ≠ r.path)
    (hpar : parentPath r.path = none) :
    insertGo recur tp td tc r = .error "path has no parent" := by
  unfold insertGo
  rw [if_neg hne, hpar]

theorem insertGo_rule2 (recur : Option (FSTree → Except String FSTree))
    {tp : PathC} (td : Data) (tc : FSChildren) {r : NRec} (hne : tp ≠ r.path)
    (hpar : parentPath r.path = some tp) :
    insertGo recur tp td tc r =
      .ok (.mk tp td (insertDirect r tc)) := by
  unfold insertGo
  rw [if_neg hne, hpar]
  exact if_pos rfl

theorem insertGo_rule3_none {tp : PathC} (td : Data) (tc : FSChildren)
    {r : NRec} (hne : tp ≠ r.path) {par : PathC}
    (hpar : parentPath r.path = some par) (hnp : tp ≠ par) :
    insertGo none tp td tc r = .error "recursion limit" := by
  unfold insertGo
  rw [if_neg hne, hpar]
  exact if_neg hnp

theorem insertGo_rule3_some (f : FSTree → Except String FSTree)
    {tp : PathC} (td : Data) (tc : FSChildren) {r : NRec} (hne : tp ≠ r.path)
    {par : PathC} (hpar : parentPath r.path = some par) (hnp : tp ≠ par) :
    insertGo (some f) tp td tc r =
      descend f (r.path.take (tp.length + 1)) tp td tc := by
  unfold insertGo
  rw [if_neg hne, hpar]
  exact if_neg hnp

theorem insertAux_rule1 (fuel : Nat) {tp : PathC} (td : Data)
    (tc : FSChildren) {r : NRec} (h : tp = r.path) :
    FSTree.insertAux fuel (.mk tp td tc) r = .ok (.mk tp r.data tc) := by
  cases fuel with
  | zero => exact insertGo_rule1 none td tc h
  | succ f => exact insertGo_rule1 _ td tc h

theorem insertAux_noparent (fuel : Nat) {tp : PathC} (td : Data)
    (tc : FSChildren) {r : NRec} (hne : tp ≠ r.path)
    (hpar : parentPath r.path = none) :
    FSTree.insertAux fuel (.mk tp td tc) r = .error "path has no parent" := by
  cases fuel with
  | zero => exact insertGo_noparent none td tc hne hpar
  | succ f => exact insertGo_noparent _ td tc hne hpar

theorem insertAux_rule2 (fuel : Nat) {tp : PathC} (td : Data)
    (tc : FSChildren) {r : NRec} (hne : tp ≠ r.path)
    (hpar : parentPath r.path = some tp) :
    FSTree.insertAux fuel (.mk tp td tc) r =
      .ok (.mk tp td (insertDirect r tc)) := by
  cases fuel with
  | zero => exact insertGo_rule2 none td tc hne hpar
  | succ f => exact insertGo_rule2 _ td tc hne hpar

theorem insertAux_rule3 (fuel : Nat) {tp : PathC} (td : Data)
    (tc : FSChildren) {r : NRec} (hne : tp ≠ r.path) {par : PathC}
    (hpar : parentPath r.path = some par) (hnp : tp ≠ par) :
    FSTree.insertAux (fuel + 1) (.mk tp td tc) r =
      descend (fun sub => FSTree.insertAux fuel sub r)
        (r.path.take (tp.length + 1)) tp td tc :=
  insertGo_rule3_some _ td tc hne hpar hnp

theorem descend_obj_node {key : PathC} {tc : FSChildren} {d : Data}
    (f : FSTree → Except String FSTree) (tp : PathC) (td : Data)
    (h : (childLookup key tc).getD (.Dir (.mk key default .nil)) =
      .Node d) :
    descend f key tp td tc = .error "insert into node" := by
  unfold descend
  rw [h]

theorem descend_obj_dir {key : PathC} {tc : FSChildren} {sub : FSTree}
    (f : FSTree → Except String FSTree) (tp : PathC) (td : Data)
    (h : (childLookup key tc).getD (.Dir (.mk key default .nil)) =
      .Dir sub) :
    descend f key tp td tc =
      (f sub).map (fun t2 => .mk tp td (childUpsert key (.Dir t2) tc)) := by
  unfold descend
  rw [h]

theorem insertAux_rule3_zero {tp : PathC} (td : Data) (tc : FSChildren)
    {r : NRec} (hne : tp ≠ r.path) {par : PathC}
    (hpar : parentPath r.path = some par) (hnp : tp ≠ par) :
    FSTree.insertAux 0 (.mk tp td tc) r = .error "recursion limit" :=
  insertGo_rule3_none td tc hne hpar hnp

/-! ### Claim C9 — insert routed into a leaf fails loudly -/

/-- **C9**: `FSObj::insert` on a `Node` is always an error, and a
`FSTree::insert` descent whose routing key holds an existing `Node` child
(a path previously reported as a file, now needed as a directory) returns
that error instead of modifying the tree. -/
theorem c9_insert_into_leaf :
    (∀ (fuel : Nat) (d : Data) (r : NRec),
      FSObj.insert fuel (.Node d) r = .error "insert into node") ∧
    (∀ (fuel : Nat) (t : FSTree) (r : NRec) (par : PathC) (d : Data),
      t.path ≠ r.path →
      parentPath r.path = some par →
      t.path ≠ par →
      childLookup (r.path.take (t.path.length + 1)) t.children =
        some (.Node d) →
      FSTree.insertAux (fuel + 1) t r = .error "insert into node") := by
  constructor
  · intro fuel d r; rfl
  · intro fuel t r par d hne hpar hnp hlook
    cases t with
    | mk tp td tc =>
      simp only [FSTree.path] at hne hnp
      simp only [FSTree.path, FSTree.children] at hlook
      rw [insertAux_succ, insertGo_rule3_some _ td tc hne hpar hnp,
        descend_obj_node _ tp td (by rw [hlook]; rfl)]

def c9T : FSTree :=
  .mk ["/", "d"] default
    (.cons ["/", "d", "a"] (.Node ⟨7, 0, 1, 0⟩) .nil)

def c9R : NRec := ⟨["/", "d", "a", "x"], "-rw-r--r--", ⟨9, 0, 1, 0⟩⟩

theorem c9_insert_into_leaf_witness :
    FSObj.insert 3 (.Node ⟨7, 0, 1, 0⟩) c9R = .error "insert into node" ∧
    FSTree.insertAux (2 + 1) c9T c9R = .error "insert into node" :=
  ⟨c9_insert_into_leaf.1 3 ⟨7, 0, 1, 0⟩ c9R,
   c9_insert_into_leaf.2 2 c9T c9R ["/", "d", "a"] ⟨7, 0, 1, 0⟩
     (by decide) rfl (by decide) rfl⟩

/-! ### Claim C7 — order-independence of tree construction -/

/-- Fold `FSTree::insert` over a record list (the loop of `ncdu::sum`, at
record level). -/
def insertAll (t : FSTree) : List NRec → Except String FSTree
  | [] => .ok t
  | r :: rest =>
    match FSTree.insert t r with
    | .error e => .error e
    | .ok t2 => insertAll t2 rest

def c7r1 : NRec := ⟨["/", "d", "a"], "-rw-r--r--", ⟨1024, 0, 1, 0⟩⟩

def c7r2 : NRec := ⟨["/", "d", "a", "x"], "-rw-r--r--", ⟨512, 0, 1, 0⟩⟩

/-- **C7, counterexample**: two records, each path reported once (hence with
a single kind): a file at `/d/a` and a file at `/d/a/x`.  Inserting
file-first routes the second insert into a `Node` and errors; child-first
creates a placeholder directory for `/d/a` which the later file record then
merely updates, succeeding.  The two permutations do not yield identical
results. -/
theorem c7_counterexample :
    (insertAll (.mk ["/", "d"] default .nil) [c7r1, c7r2]).isOk = false ∧
    (insertAll (.mk ["/", "d"] default .nil) [c7r2, c7r1]).isOk = true :=
  ⟨rfl, rfl⟩

/-! #### Order lemmas for the children map keys -/

theorem charLtB_asymm {a b : Char} (h : charLtB a b = true) :
    charLtB b a = false := by
  simp only [charLtB, decide_eq_true_eq, decide_eq_false_iff_not] at h ⊢
  omega

theorem charLtB_conn {a b : Char} (h1 : charLtB a b = false)
    (h2 : charLtB b a = false) : a = b := by
  simp only [charLtB, decide_eq_false_iff_not] at h1 h2
  have hv : a.val.toNat = b.val.toNat := by omega
  exact Char.ext (UInt32.ext hv)

theorem strLtL_asymm : ∀ {as bs : List Char}, strLtL as bs = true →
    strLtL bs as = false := by
  intro as
  induction as with
  | nil => intro bs h; cases bs with
    | nil => exact absurd h (by simp [strLtL])
    | cons b bs => rfl
  | cons a as ih =>
    intro bs h
    cases bs with
    | nil => exact absurd h (by simp [strLtL])
    | cons b bs =>
      rw [strLtL] at h ⊢
      by_cases hab : charLtB a b = true
      · rw [charLtB_asymm hab, if_neg (by simp), if_pos hab]
      · replace hab : charLtB a b = false := by
          cases hq : charLtB a b <;> simp_all
        rw [if_neg (by simp [hab])] at h
        by_cases hba : charLtB b a = true
        · rw [if_pos hba] at h; exact absurd h (by simp)
        · replace hba : charLtB b a = false := by
            cases hq : charLtB b a <;> simp_all
          rw [if_neg (by simp [hba])] at h
          rw [if_neg (by simp [hba]), if_neg (by simp [hab])]
          exact ih h

theorem strLtL_conn : ∀ {as bs : List Char}, strLtL as bs = false →
    strLtL bs as = false → as = bs := by
  intro as
  induction as with
  | nil => intro bs h1 _; cases bs with
    | nil => rfl
    | cons b bs => exact absurd h1 (by simp [strLtL])
  | cons a as ih =>
    intro bs h1 h2
    cases bs with
    | nil => exact absurd h2 (by simp [strLtL])
    | cons b bs =>
      rw [strLtL] at h1 h2
      by_cases hab : charLtB a b = true
      · rw [if_pos hab] at h1; exact absurd h1 (by simp)
      · replace hab : charLtB a b = false := by
          cases hq : charLtB a b <;> simp_all
        by_cases hba : charLtB b a = true
        · rw [if_pos hba] at h2; exact absurd h2 (by simp)
        · replace hba : charLtB b a = false := by
            cases hq : charLtB b a <;> simp_all
          rw [if_neg (by simp [hab]), if_neg (by simp [hba])] at h1
          rw [if_neg (by simp [hba]), if_neg (by simp [hab])] at h2
          rw [charLtB_conn hab hba, ih h1 h2]

theorem strLt_asymm {a b : String} (h : strLt a b = true) :
    strLt b a = false := strLtL_asymm h

theorem strLt_conn {a b : String} (h1 : strLt a b = false)
    (h2 : strLt b a = false) : a = b := by
  have := strLtL_conn h1 h2
  cases a; cases b
  simp only [String.toList] at this
  simp [this]

theorem keyLt_asymm : ∀ {a b : PathC}, keyLt a b = true →
    keyLt b a = false := by
  intro a
  induction a with
  | nil => intro b h; cases b with
    | nil => exact absurd h (by simp [keyLt])
    | cons x xs => rfl
  | cons x xs ih =>
    intro b h
    cases b with
    | nil => exact absurd h (by simp [keyLt])
    | cons y ys =>
      rw [keyLt] at h ⊢
      by_cases hxy : strLt x y = true
      · rw [strLt_asymm hxy, if_neg (by simp), if_pos hxy]
      · replace hxy : strLt x y = false := by
          cases hq : strLt x y <;> simp_all
        rw [if_neg (by simp [hxy])] at h
        by_cases hyx : strLt y x = true
        · rw [if_pos hyx] at h; exact absurd h (by simp)
        · replace hyx : strLt y x = false := by
            cases hq : strLt y x <;> simp_all
          rw [if_neg (by simp [hyx])] at h
          rw [if_neg (by simp [hyx]), if_neg (by simp [hxy])]
          exact ih h

theorem keyLt_conn : ∀ {a b : PathC}, keyLt a b = false →
    keyLt b a = false → a = b := by
  intro a
  induction a with
  | nil => intro b h1 _; cases b with
    | nil => rfl
    | cons y ys => exact absurd h1 (by simp [keyLt])
  | cons x xs ih =>
    intro b h1 h2
    cases b with
    | nil => exact absurd h2 (by simp [keyLt])
    | cons y ys =>
      rw [keyLt] at h1 h2
      by_cases hxy : strLt x y = true
      · rw [if_pos hxy] at h1; exact absurd h1 (by simp)
      · replace hxy : strLt x y = false := by
          cases hq : strLt x y <;> simp_all
        by_cases hyx : strLt y x = true
        · rw [if_pos hyx] at h2; exact absurd h2 (by simp)
        · replace hyx : strLt y x = false := by
            cases hq : strLt y x <;> simp_all
          rw [if_neg (by simp [hxy]), if_neg (by simp [hyx])] at h1
          rw [if_neg (by simp [hyx]), if_neg (by simp [hxy])] at h2
          rw [strLt_conn hxy hyx, ih h1 h2]

theorem charLtB_trans {a b c : Char} (h1 : charLtB a b = true)
    (h2 : charLtB b c = true) : charLtB a c = true := by
  simp only [charLtB, decide_eq_true_eq] at h1 h2 ⊢
  omega

theorem strLtL_trans : ∀ {as bs cs : List Char}, strLtL as bs = true →
    strLtL bs cs = true → strLtL as cs = true := by
  intro as
  induction as with
  | nil =>
    intro bs cs h1 h2
    cases bs with
    | nil => exact absurd h1 (by simp [strLtL])
    | cons b bs =>
      cases cs with
      | nil => exact absurd h2 (by simp [strLtL])
      | cons c cs => rfl
  | cons a as ih =>
    intro bs cs h1 h2
    cases bs with
    | nil => exact absurd h1 (by simp [strLtL])
    | cons b bs =>
      cases cs with
      | nil => exact absurd h2 (by simp [strLtL])
      | cons c cs =>
        rw [strLtL] at h1 h2 ⊢
        by_cases hab : charLtB a b = true
        · by_cases hbc : charLtB b c = true
          · rw [if_pos (charLtB_trans hab hbc)]
          · replace hbc : charLtB b c = false := by
              cases hq : charLtB b c <;> simp_all
            rw [if_neg (by simp [hbc])] at h2
            by_cases hcb : charLtB c b = true
            · rw [if_pos hcb] at h2; exact absurd h2 (by simp)
            · replace hcb : charLtB c b = false := by
                cases hq : charLtB c b <;> simp_all
              rw [← charLtB_conn hbc hcb, if_pos hab]
        · replace hab : charLtB a b = false := by
            cases hq : charLtB a b <;> simp_all
          rw [if_neg (by simp [hab])] at h1
          by_cases hba : charLtB b a = true
          · rw [if_pos hba] at h1; exact absurd h1 (by simp)
          · replace hba : charLtB b a = false := by
              cases hq : charLtB b a <;> simp_all
            rw [if_neg (by simp [hba])] at h1
            have hae : a = b := charLtB_conn hab hba
            subst hae
            by_cases hac : charLtB a c = true
            · rw [if_pos hac]
            · replace hac : charLtB a c = false := by
                cases hq : charLtB a c <;> simp_all
              rw [if_neg (by simp [hac])] at h2 ⊢
              by_cases hca : charLtB c a = true
              · rw [if_pos hca] at h2; exact absurd h2 (by simp)
              · replace hca : charLtB c a = false := by
                  cases hq : charLtB c a <;> simp_all
                rw [if_neg (by simp [hca])] at h2 ⊢
                exact ih h1 h2

theorem strLt_trans {a b c : String} (h1 : strLt a b = true)
    (h2 : strLt b c = true) : strLt a c = true := strLtL_trans h1 h2

theorem keyLt_trans : ∀ {a b c : PathC}, keyLt a b = true →
    keyLt b c = true → keyLt a c = true := by
  intro a
  induction a with
  | nil =>
    intro b c h1 h2
    cases b with
    | nil => exact absurd h1 (by simp [keyLt])
    | cons y ys =>
      cases c with
      | nil => exact absurd h2 (by simp [keyLt])
      | cons z zs => rfl
  | cons x xs ih =>
    intro b c h1 h2
    cases b with
    | nil => exact absurd h1 (by simp [keyLt])
    | cons y ys =>
      cases c with
      | nil => exact absurd h2 (by simp [keyLt])
      | cons z zs =>
        rw [keyLt] at h1 h2 ⊢
        by_cases hxy : strLt x y = true
        · by_cases hyz : strLt y z = true
          · rw [if_pos (strLt_trans hxy hyz)]
          · replace hyz : strLt y z = false := by
              cases hq : strLt y z <;> simp_all
            rw [if_neg (by simp [hyz])] at h2
            by_cases hzy : strLt z y = true
            · rw [if_pos hzy] at h2; exact absurd h2 (by simp)
            · replace hzy : strLt z y = false := by
                cases hq : strLt z y <;> simp_all
              rw [← strLt_conn hyz hzy, if_pos hxy]
        · replace hxy : strLt x y = false := by
            cases hq : strLt x y <;> simp_all
          rw [if_neg (by simp [hxy])] at h1
          by_cases hyx : strLt y x = true
          · rw [if_pos hyx] at h1; exact absurd h1 (by simp)
          · replace hyx : strLt y x = false := by
              cases hq : strLt y x <;> simp_all
            rw [if_neg (by simp [hyx])] at h1
            have hxe : x = y := strLt_conn hxy hyx
            subst hxe
            by_cases hxz : strLt x z = true
            · rw [if_pos hxz]
            · replace hxz : strLt x z = false := by
                cases hq : strLt x z <;> simp_all
              rw [if_neg (by simp [hxz])] at h2 ⊢
              by_cases hzx : strLt z x = true
              · rw [if_pos hzx] at h2; exact absurd h2 (by simp)
              · replace hzx : strLt z x = false := by
                  cases hq : strLt z x <;> simp_all
                rw [if_neg (by simp [hzx])] at h2 ⊢
                exact ih h1 h2

/-- `a < b` and `¬(c < b)` give `a < c` (i.e. `a < b ≤ c`). -/
theorem keyLt_lt_of_not_lt {a b c : PathC} (hab : keyLt a b = true)
    (hcb : keyLt c b = false) : keyLt a c = true := by
  by_cases hbc : keyLt b c = true
  · exact keyLt_trans hab hbc
  · replace hbc : keyLt b c = false := by
      cases hq : keyLt b c <;> simp_all
    rw [← keyLt_conn hbc hcb]
    exact hab

/-! #### Children-map algebra -/

/-- Plain list-style induction for `FSChildren` (the mutual recursor has
multiple motives, which the `induction` tactic cannot use directly). -/
theorem FSChildren.inductionOn {motive : FSChildren → Prop}
    (hnil : motive .nil)
    (hcons : ∀ k o rest, motive rest → motive (.cons k o rest)) :
    ∀ cs, motive cs
  | .nil => hnil
  | .cons k o rest => hcons k o rest (FSChildren.inductionOn hnil hcons rest)

theorem childLookup_upsert_self (k : PathC) (v : FSObj) :
    ∀ cs, childLookup k (childUpsert k v cs) = some v := by
  intro cs
  induction cs using FSChildren.inductionOn with
  | hnil => simp [childUpsert, childLookup]
  | hcons k1 v1 rest ih =>
    rw [childUpsert]
    by_cases h1 : k = k1
    · rw [if_pos h1, childLookup, if_pos h1]
    · rw [if_neg h1]
      by_cases h2 : keyLt k k1 = true
      · rw [if_pos h2, childLookup, if_pos rfl]
      · rw [if_neg h2, childLookup, if_neg h1]
        exact ih

theorem childLookup_upsert_ne {k' k : PathC} (hne : k' ≠ k) (v : FSObj) :
    ∀ cs, childLookup k' (childUpsert k v cs) = childLookup k' cs := by
  intro cs
  induction cs using FSChildren.inductionOn with
  | hnil => simp [childUpsert, childLookup, hne]
  | hcons k1 v1 rest ih =>
    rw [childUpsert]
    by_cases h1 : k = k1
    · subst h1
      rw [if_pos rfl, childLookup, childLookup, if_neg hne, if_neg hne]
    · rw [if_neg h1]
      by_cases h2 : keyLt k k1 = true
      · rw [if_pos h2, childLookup, if_neg hne]
      · rw [if_neg h2, childLookup, childLookup]
        by_cases h3 : k' = k1
        · rw [if_pos h3, if_pos h3]
        · rw [if_neg h3, if_neg h3]
          exact ih

theorem childUpsert_upsert_self (k : PathC) (v1 v2 : FSObj) :
    ∀ cs, childUpsert k v1 (childUpsert k v2 cs) = childUpsert k v1 cs := by
  intro cs
  induction cs using FSChildren.inductionOn with
  | hnil => simp [childUpsert]
  | hcons k1 w rest ih =>
    rw [childUpsert]
    by_cases h1 : k = k1
    · rw [if_pos h1, childUpsert, if_pos h1, childUpsert, if_pos h1]
    · rw [if_neg h1]
      by_cases h2 : keyLt k k1 = true
      · rw [if_pos h2, childUpsert, if_pos rfl, childUpsert, if_neg h1,
          if_pos h2]
      · rw [if_neg h2, childUpsert, if_neg h1, if_neg h2, childUpsert,
          if_neg h1, if_neg h2, ih]

theorem childUpsert_comm {k1 k2 : PathC} (hne : k1 ≠ k2) (v1 v2 : FSObj) :
    ∀ cs, childUpsert k1 v1 (childUpsert k2 v2 cs) =
      childUpsert k2 v2 (childUpsert k1 v1 cs) := by
  have hne2 : ¬ (k2 = k1) := fun h => hne h.symm
  intro cs
  induction cs using FSChildren.inductionOn with
  | hnil =>
    by_cases h12 : keyLt k1 k2 = true
    · have h21 : keyLt k2 k1 = false := keyLt_asymm h12
      simp [childUpsert, hne, hne2, h12, h21]
    · replace h12 : keyLt k1 k2 = false := by
        cases hq : keyLt k1 k2 <;> simp_all
      have h21 : keyLt k2 k1 = true := by
        cases hq : keyLt k2 k1 with
        | true => rfl
        | false => exact absurd (keyLt_conn h12 hq) hne
      simp [childUpsert, hne, hne2, h12, h21]
  | hcons k w rest ih =>
    by_cases hk1 : k1 = k
    · subst hk1
      by_cases hl2 : keyLt k2 k1 = true
      · have h12 : keyLt k1 k2 = false := keyLt_asymm hl2
        simp [childUpsert, hne, hne2, hl2, h12]
      · replace hl2 : keyLt k2 k1 = false := by
          cases hq : keyLt k2 k1 <;> simp_all
        simp [childUpsert, hne, hne2, hl2]
    · by_cases hk2 : k2 = k
      · subst hk2
        by_cases hl1 : keyLt k1 k2 = true
        · have h21 : keyLt k2 k1 = false := keyLt_asymm hl1
          simp [childUpsert, hne, hne2, hl1, h21]
        · replace hl1 : keyLt k1 k2 = false := by
            cases hq : keyLt k1 k2 <;> simp_all
          simp [childUpsert, hne, hne2, hl1]
      · have hk1e : ¬ (k1 = k) := hk1
        have hk2e : ¬ (k2 = k) := hk2
        by_cases hl1 : keyLt k1 k = true
        · by_cases hl2 : keyLt k2 k = true
          · by_cases h12 : keyLt k1 k2 = true
            · have h21 : keyLt k2 k1 = false := keyLt_asymm h12
              simp [childUpsert, hne, hne2, hk1e, hk2e, hl1, hl2, h12, h21]
            · replace h12 : keyLt k1 k2 = false := by
                cases hq : keyLt k1 k2 <;> simp_all
              have h21 : keyLt k2 k1 = true := by
                cases hq : keyLt k2 k1 with
                | true => rfl
                | false => exact absurd (keyLt_conn h12 hq) hne
              simp [childUpsert, hne, hne2, hk1e, hk2e, hl1, hl2, h12, h21]
          · replace hl2 : keyLt k2 k = false := by
              cases hq : keyLt k2 k <;> simp_all
            have h12 : keyLt k1 k2 = true := keyLt_lt_of_not_lt hl1 hl2
            have h21 : keyLt k2 k1 = false := keyLt_asymm h12
            simp [childUpsert, hne, hne2, hk1e, hk2e, hl1, hl2, h12, h21]
        · replace hl1 : keyLt k1 k = false := by
            cases hq : keyLt k1 k <;> simp_all
          by_cases hl2 : keyLt k2 k = true
          · have h21 : keyLt k2 k1 = true := keyLt_lt_of_not_lt hl2 hl1
            have h12 : keyLt k1 k2 = false := keyLt_asymm h21
            simp [childUpsert, hne, hne2, hk1e, hk2e, hl1, hl2, h12, h21]
          · replace hl2 : keyLt k2 k = false := by
              cases hq : keyLt k2 k <;> simp_all
            simp [childUpsert, hne, hne2, hk1e, hk2e, hl1, hl2, ih]

/-- Every successful insert keeps the node's path. -/
theorem insertAux_path {fuel : Nat} {tp : PathC} {td : Data}
    {tc : FSChildren} {r : NRec} {t2 : FSTree}
    (h : FSTree.insertAux fuel (.mk tp td tc) r = .ok t2) :
    ∃ dd cc, t2 = .mk tp dd cc := by
  by_cases h1 : tp = r.path
  · rw [insertAux_rule1 fuel td tc h1] at h
    exact ⟨r.data, tc, (Except.ok.inj h).symm⟩
  · cases hpar : parentPath r.path with
    | none =>
      rw [insertAux_noparent fuel td tc h1 hpar] at h
      exact Except.noConfusion h
    | some par =>
      by_cases h2 : tp = par
      · subst h2
        rw [insertAux_rule2 fuel td tc h1 hpar] at h
        exact ⟨td, _, (Except.ok.inj h).symm⟩
      · cases fuel with
        | zero =>
          rw [insertAux_rule3_zero td tc h1 hpar h2] at h
          exact Except.noConfusion h
        | succ f =>
          rw [insertAux_rule3 f td tc h1 hpar h2] at h
          cases hc : (childLookup (r.path.take (tp.length + 1)) tc).getD
              (.Dir (.mk (r.path.take (tp.length + 1)) default .nil)) with
          | Node d =>
            rw [descend_obj_node _ tp td hc] at h
            exact Except.noConfusion h
          | Dir subtree =>
            rw [descend_obj_dir _ tp td hc] at h
            cases hins : FSTree.insertAux f subtree r with
            | error e => rw [hins] at h; exact Except.noConfusion h
            | ok t3 =>
              rw [hins] at h
              replace h : Except.ok (FSTree.mk tp td (childUpsert
                  (r.path.take (tp.length + 1)) (.Dir t3) tc)) = .ok t2 := h
              exact ⟨td, _, (Except.ok.inj h).symm⟩

/-! #### Well-formed trees: every stored subtree's path equals its key, and
every key extends its parent's path by exactly one component. -/

mutual
inductive WFT : FSTree → Prop where
  | mk : ∀ (p : PathC) (d : Data) (cs : FSChildren), WFC p cs →
      WFT (.mk p d cs)
inductive WFC : PathC → FSChildren → Prop where
  | nil : ∀ (p : PathC), WFC p .nil
  | cons : ∀ (p k : PathC) (o : FSObj) (cs : FSChildren),
      k.length = p.length + 1 → k.take p.length = p →
      WFO k o → WFC p cs → WFC p (.cons k o cs)
inductive WFO : PathC → FSObj → Prop where
  | dir : ∀ (k : PathC) (t : FSTree), t.path = k → WFT t → WFO k (.Dir t)
  | node : ∀ (k : PathC) (d : Data), WFO k (.Node d)
end

theorem WFC_lookup : ∀ (cs : FSChildren) {p k : PathC} {o : FSObj},
    WFC p cs → childLookup k cs = some o →
    k.length = p.length + 1 ∧ k.take p.length = p ∧ WFO k o := by
  intro cs
  induction cs using FSChildren.inductionOn with
  | hnil => intro p k o _ hl; exact Option.noConfusion hl
  | hcons k1 o1 rest ih =>
    intro p k o hw hl
    cases hw with
    | cons _ _ _ _ hlen htake hwo hwc =>
      rw [childLookup] at hl
      by_cases he : k = k1
      · rw [if_pos he] at hl
        subst he
        exact ⟨hlen, htake, (Option.some.inj hl) ▸ hwo⟩
      · rw [if_neg he] at hl
        exact ih hwc hl

theorem WFC_upsert : ∀ (cs : FSChildren) {p k : PathC} {v : FSObj},
    WFC p cs → k.length = p.length + 1 → k.take p.length = p → WFO k v →
    WFC p (childUpsert k v cs) := by
  intro cs
  induction cs using FSChildren.inductionOn with
  | hnil =>
    intro p k v _ hlen htake hwo
    exact WFC.cons p k v .nil hlen htake hwo (WFC.nil p)
  | hcons k1 o1 rest ih =>
    intro p k v hw hlen htake hwo
    cases hw with
    | cons _ _ _ _ hlen1 htake1 hwo1 hwc =>
      rw [childUpsert]
      by_cases he : k = k1
      · rw [if_pos he]
        exact WFC.cons p k1 v rest hlen1 htake1 (he ▸ hwo) hwc
      · rw [if_neg he]
        by_cases hlt : keyLt k k1 = true
        · rw [if_pos hlt]
          exact WFC.cons p k v _ hlen htake hwo
            (WFC.cons p k1 o1 rest hlen1 htake1 hwo1 hwc)
        · rw [if_neg hlt]
          exact WFC.cons p k1 o1 _ hlen1 htake1 hwo1 (ih hwc hlen htake hwo)


/-! #### Path arithmetic for records below the root -/

theorem prefix_len_le {rp tp : PathC} (h : rp.take tp.length = tp) :
    tp.length ≤ rp.length := by
  have hlen := congrArg List.length h
  rw [List.length_take] at hlen
  omega

theorem prefix_ne_len {rp tp : PathC} (h : rp.take tp.length = tp)
    (hne : rp ≠ tp) : tp.length + 1 ≤ rp.length := by
  have hle := prefix_len_le h
  by_cases heq : rp.length = tp.length
  · exact absurd (by rw [← h, List.take_of_length_le (by omega)]) hne
  · omega

theorem parentPath_of_two {rp : PathC} (h : 2 ≤ rp.length) :
    parentPath rp = some (rp.take (rp.length - 1)) := by
  unfold parentPath
  rw [if_neg (by omega), List.dropLast_eq_take]

theorem parentPath_inv {rp par : PathC} (h : parentPath rp = some par) :
    2 ≤ rp.length ∧ par = rp.take (rp.length - 1) := by
  unfold parentPath at h
  by_cases hl : rp.length ≤ 1
  · rw [if_pos hl] at h
    exact Option.noConfusion h
  · rw [if_neg hl] at h
    refine ⟨by omega, ?_⟩
    rw [← Option.some.inj h, List.dropLast_eq_take]

/-- A record exactly one level below the node has the node as parent. -/
theorem parent_root {rp tp : PathC} (hl : 1 ≤ tp.length)
    (hpref : rp.take tp.length = tp) (hlen : rp.length = tp.length + 1) :
    parentPath rp = some tp := by
  rw [parentPath_of_two (by omega), hlen, Nat.add_sub_cancel, hpref]

/-- A record two or more levels below the node has a parent distinct from
the node. -/
theorem parent_deep {rp tp : PathC} (hl : 1 ≤ tp.length)
    (hpref : rp.take tp.length = tp) (hlen : tp.length + 2 ≤ rp.length) :
    ∃ par, parentPath rp = some par ∧ tp ≠ par := by
  refine ⟨rp.take (rp.length - 1), parentPath_of_two (by omega), ?_⟩
  intro hcontra
  have hc := congrArg List.length hcontra
  rw [List.length_take] at hc
  omega

/-- The routing key of rule 3: length, prefix of the record path, and
being one component longer than the node path. -/
theorem key_facts {rp tp : PathC} (hpref : rp.take tp.length = tp)
    (hlen : tp.length + 1 ≤ rp.length) :
    (rp.take (tp.length + 1)).length = tp.length + 1 ∧
    (rp.take (tp.length + 1)).take tp.length = tp ∧
    rp.take ((rp.take (tp.length + 1)).length) = rp.take (tp.length + 1) := by
  have h1 : (rp.take (tp.length + 1)).length = tp.length + 1 := by
    rw [List.length_take]; omega
  refine ⟨h1, ?_, by rw [h1]⟩
  rw [List.take_take, Nat.min_eq_left (by omega), hpref]

/-- A record strictly more than one level below the node whose parent is
not the node sits at least two levels below. -/
theorem deep_len {rp tp par : PathC} (hpref : rp.take tp.length = tp)
    (h0 : tp ≠ rp) (hpar : parentPath rp = some par) (hp : tp ≠ par) :
    tp.length + 2 ≤ rp.length := by
  obtain ⟨h2, hpe⟩ := parentPath_inv hpar
  have h1 : tp.length + 1 ≤ rp.length :=
    prefix_ne_len hpref (fun h => h0 h.symm)
  by_cases hL : rp.length = tp.length + 1
  · exact absurd (by rw [hpe, hL, Nat.add_sub_cancel, hpref]) hp
  · omega

/-! #### Algebra of the direct-child update -/

theorem childLookup_insertDirect_ne {k : PathC} {r : NRec}
    (hne : k ≠ r.path) (tc : FSChildren) :
    childLookup k (insertDirect r tc) = childLookup k tc := by
  unfold insertDirect
  exact childLookup_upsert_ne hne _ tc

theorem childLookup_insertDirect_self (r : NRec) (tc : FSChildren) :
    childLookup r.path (insertDirect r tc) =
      some (dcVal r (childLookup r.path tc)) := by
  unfold insertDirect
  exact childLookup_upsert_self r.path _ tc

theorem insertDirect_upsert_comm {k : PathC} {r : NRec} (hne : r.path ≠ k)
    (v : FSObj) (tc : FSChildren) :
    insertDirect r (childUpsert k v tc) =
      childUpsert k v (insertDirect r tc) := by
  unfold insertDirect
  rw [childLookup_upsert_ne hne v tc]
  exact childUpsert_comm hne _ v tc

theorem insertDirect_comm {r1 r2 : NRec} (hne : r1.path ≠ r2.path)
    (tc : FSChildren) :
    insertDirect r1 (insertDirect r2 tc) =
      insertDirect r2 (insertDirect r1 tc) := by
  have step : insertDirect r1 (insertDirect r2 tc) =
      childUpsert r1.path (dcVal r1 (childLookup r1.path tc))
        (insertDirect r2 tc) := by
    show childUpsert r1.path
        (dcVal r1 (childLookup r1.path (insertDirect r2 tc)))
        (insertDirect r2 tc) = _
    rw [childLookup_insertDirect_ne hne]
  rw [step, ← insertDirect_upsert_comm (fun h => hne h.symm)]
  rfl

/-! #### The children transformation of an insert is independent of the
node's own data -/

theorem insertAux_data_indep (fuel : Nat) (tp : PathC) (d1 d2 : Data)
    (tc : FSChildren) {r : NRec} (hne : tp ≠ r.path) :
    FSTree.insertAux fuel (.mk tp d1 tc) r =
      (FSTree.insertAux fuel (.mk tp d2 tc) r).map
        (fun t => .mk tp d1 t.children) := by
  cases hpar : parentPath r.path with
  | none =>
    rw [insertAux_noparent fuel d1 tc hne hpar,
        insertAux_noparent fuel d2 tc hne hpar]
    rfl
  | some par =>
    by_cases hp : tp = par
    · subst hp
      rw [insertAux_rule2 fuel d1 tc hne hpar,
          insertAux_rule2 fuel d2 tc hne hpar]
      rfl
    · cases fuel with
      | zero =>
        rw [insertAux_rule3_zero d1 tc hne hpar hp,
            insertAux_rule3_zero d2 tc hne hpar hp]
        rfl
      | succ f =>
        rw [insertAux_rule3 f d1 tc hne hpar hp,
            insertAux_rule3 f d2 tc hne hpar hp]
        cases hc : (childLookup (r.path.take (tp.length + 1)) tc).getD
            (.Dir (.mk (r.path.take (tp.length + 1)) default .nil)) with
        | Node d =>
          rw [descend_obj_node _ tp d1 hc, descend_obj_node _ tp d2 hc]
          rfl
        | Dir sub =>
          rw [descend_obj_dir _ tp d1 hc, descend_obj_dir _ tp d2 hc]
          cases hi : FSTree.insertAux f sub r with
          | error e => rfl
          | ok t2 => rfl

/-! #### Inserting below a well-formed node: shape, stability, errors -/

/-- The object fetched (or created) at a rule-3 routing key is, when a
directory, a tree rooted at the key with well-formed children. -/
theorem getD_WF {tp k : PathC} {tc : FSChildren} {sub : FSTree}
    (hwf : WFC tp tc)
    (ho : (childLookup k tc).getD (.Dir (.mk k default .nil)) = .Dir sub) :
    ∃ sd scc, sub = .mk k sd scc ∧ WFC k scc := by
  cases hlk : childLookup k tc with
  | none =>
    rw [hlk] at ho
    replace ho : FSObj.Dir (.mk k default .nil) = .Dir sub := ho
    cases ho
    exact ⟨default, .nil, rfl, WFC.nil k⟩
  | some o =>
    rw [hlk] at ho
    replace ho : o = .Dir sub := ho
    subst ho
    obtain ⟨_, _, hwo⟩ := WFC_lookup tc hwf hlk
    cases sub with
    | mk sp sd scc =>
      cases hwo with
      | dir _ _ hpath hwt =>
        replace hpath : sp = k := hpath
        subst hpath
        cases hwt with
        | mk _ _ _ hwc => exact ⟨sd, scc, rfl, hwc⟩

/-- The value written by a direct-child update is well formed at its key. -/
theorem dcVal_WF {tp : PathC} {tc : FSChildren} (hwf : WFC tp tc)
    (r : NRec) : WFO r.path (dcVal r (childLookup r.path tc)) := by
  cases hlk : childLookup r.path tc with
  | none =>
    show WFO r.path (if startsWithS "d" r.mode
      then FSObj.Dir (.mk r.path r.data .nil) else .Node r.data)
    cases hmode : startsWithS "d" r.mode with
    | true =>
      rw [if_pos rfl]
      exact WFO.dir _ _ rfl (WFT.mk _ _ _ (WFC.nil _))
    | false =>
      rw [if_neg (by simp)]
      exact WFO.node _ _
  | some o =>
    obtain ⟨_, _, hwo⟩ := WFC_lookup tc hwf hlk
    cases o with
    | Dir t =>
      cases t with
      | mk sp sd scc =>
        cases hwo with
        | dir _ _ hpath hwt =>
          replace hpath : sp = r.path := hpath
          subst hpath
          cases hwt with
          | mk _ _ _ hwc => exact WFO.dir _ _ rfl (WFT.mk _ _ _ hwc)
    | Node d => exact WFO.node _ _

/-- A successful insert below a well-formed node keeps the node's path and
well-formedness of its children. -/
theorem insertAux_WF : ∀ (fuel : Nat) (tp : PathC) (td : Data)
    (tc : FSChildren) (r : NRec) (t2 : FSTree),
    WFC tp tc → 1 ≤ tp.length → r.path.take tp.length = tp →
    FSTree.insertAux fuel (.mk tp td tc) r = .ok t2 →
    ∃ dd cc, t2 = .mk tp dd cc ∧ WFC tp cc := by
  intro fuel
  induction fuel with
  | zero =>
    intro tp td tc r t2 hwf hl hpref h
    by_cases h0 : tp = r.path
    · rw [insertAux_rule1 0 td tc h0] at h
      exact ⟨r.data, tc, (Except.ok.inj h).symm, hwf⟩
    · have hL := prefix_ne_len hpref (fun hh => h0 hh.symm)
      cases hpar : parentPath r.path with
      | none =>
        rw [parentPath_of_two (by omega)] at hpar
        exact Option.noConfusion hpar
      | some par =>
        by_cases hp : tp = par
        · subst hp
          rw [insertAux_rule2 0 td tc h0 hpar] at h
          obtain ⟨h2, hpe⟩ := parentPath_inv hpar
          have hplen : r.path.length = tp.length + 1 := by
            have := congrArg List.length hpe
            rw [List.length_take] at this
            omega
          refine ⟨td, insertDirect r tc, (Except.ok.inj h).symm, ?_⟩
          exact WFC_upsert tc hwf hplen hpref (dcVal_WF hwf r)
        · rw [insertAux_rule3_zero td tc h0 hpar hp] at h
          exact Except.noConfusion h
  | succ f ih =>
    intro tp td tc r t2 hwf hl hpref h
    by_cases h0 : tp = r.path
    · rw [insertAux_rule1 (f + 1) td tc h0] at h
      exact ⟨r.data, tc, (Except.ok.inj h).symm, hwf⟩
    · have hL := prefix_ne_len hpref (fun hh => h0 hh.symm)
      cases hpar : parentPath r.path with
      | none =>
        rw [parentPath_of_two (by omega)] at hpar
        exact Option.noConfusion hpar
      | some par =>
        by_cases hp : tp = par
        · subst hp
          rw [insertAux_rule2 (f + 1) td tc h0 hpar] at h
          obtain ⟨h2, hpe⟩ := parentPath_inv hpar
          have hplen : r.path.length = tp.length + 1 := by
            have := congrArg List.length hpe
            rw [List.length_take] at this
            omega
          refine ⟨td, insertDirect r tc, (Except.ok.inj h).symm, ?_⟩
          exact WFC_upsert tc hwf hplen hpref (dcVal_WF hwf r)
        · rw [insertAux_rule3 f td tc h0 hpar hp] at h
          obtain ⟨hkl, hkt, hkk⟩ := key_facts hpref (by omega)
          cases ho : (childLookup (r.path.take (tp.length + 1)) tc).getD
              (.Dir (.mk (r.path.take (tp.length + 1)) default .nil)) with
          | Node d =>
            rw [descend_obj_node _ tp td ho] at h
            exact Except.noConfusion h
          | Dir sub =>
            rw [descend_obj_dir _ tp td ho] at h
            obtain ⟨sd, scc, rfl, hwfs⟩ := getD_WF hwf ho
            cases hi : FSTree.insertAux f (.mk (r.path.take (tp.length + 1))
                sd scc) r with
            | error e => rw [hi] at h; exact Except.noConfusion h
            | ok t3 =>
              rw [hi] at h
              replace h : Except.ok (FSTree.mk tp td (childUpsert
                  (r.path.take (tp.length + 1)) (.Dir t3) tc)) = .ok t2 := h
              obtain ⟨dd3, cc3, ht3, hw3⟩ := ih (r.path.take (tp.length + 1))
                sd scc r t3 hwfs (by omega) (by rw [hkl]) hi
              refine ⟨td, _, (Except.ok.inj h).symm, ?_⟩
              exact WFC_upsert tc hwf hkl hkt
                (WFO.dir _ _ (by rw [ht3]; rfl) (ht3 ▸ WFT.mk _ _ _ hw3))

/-- With enough fuel for the remaining descent, the fuel does not matter. -/
theorem insertAux_stable : ∀ (f1 f2 : Nat) (tp : PathC) (td : Data)
    (tc : FSChildren) (r : NRec),
    WFC tp tc → 1 ≤ tp.length → r.path.take tp.length = tp →
    r.path.length - tp.length ≤ f1 + 1 →
    r.path.length - tp.length ≤ f2 + 1 →
    FSTree.insertAux f1 (.mk tp td tc) r =
      FSTree.insertAux f2 (.mk tp td tc) r := by
  intro f1
  induction f1 with
  | zero =>
    intro f2 tp td tc r hwf hl hpref hb1 hb2
    by_cases h0 : tp = r.path
    · rw [insertAux_rule1 0 td tc h0, insertAux_rule1 f2 td tc h0]
    · have hL := prefix_ne_len hpref (fun hh => h0 hh.symm)
      cases hpar : parentPath r.path with
      | none =>
        rw [parentPath_of_two (by omega)] at hpar
        exact Option.noConfusion hpar
      | some par =>
        by_cases hp : tp = par
        · subst hp
          rw [insertAux_rule2 0 td tc h0 hpar,
              insertAux_rule2 f2 td tc h0 hpar]
        · have := deep_len hpref h0 hpar hp
          omega
  | succ a ih =>
    intro f2 tp td tc r hwf hl hpref hb1 hb2
    by_cases h0 : tp = r.path
    · rw [insertAux_rule1 (a + 1) td tc h0, insertAux_rule1 f2 td tc h0]
    · have hL := prefix_ne_len hpref (fun hh => h0 hh.symm)
      cases hpar : parentPath r.path with
      | none =>
        rw [parentPath_of_two (by omega)] at hpar
        exact Option.noConfusion hpar
      | some par =>
        by_cases hp : tp = par
        · subst hp
          rw [insertAux_rule2 (a + 1) td tc h0 hpar,
              insertAux_rule2 f2 td tc h0 hpar]
        · have hdeep := deep_len hpref h0 hpar hp
          cases f2 with
          | zero => omega
          | succ b =>
            rw [insertAux_rule3 a td tc h0 hpar hp,
                insertAux_rule3 b td tc h0 hpar hp]
            obtain ⟨hkl, hkt, hkk⟩ := key_facts hpref (by omega)
            cases ho : (childLookup (r.path.take (tp.length + 1)) tc).getD
                (.Dir (.mk (r.path.take (tp.length + 1)) default .nil)) with
            | Node d =>
              rw [descend_obj_node _ tp td ho, descend_obj_node _ tp td ho]
            | Dir sub =>
              rw [descend_obj_dir _ tp td ho, descend_obj_dir _ tp td ho]
              obtain ⟨sd, scc, rfl, hwfs⟩ := getD_WF hwf ho
              rw [ih b (r.path.take (tp.length + 1)) sd scc r hwfs
                (by omega) (by rw [hkl])
                (by rw [hkl]; omega) (by rw [hkl]; omega)]

/-- Under the root-prefix discipline and with enough fuel, the only error
an insert can produce is the routing-into-a-leaf error. -/
theorem insertAux_error : ∀ (fuel : Nat) (tp : PathC) (td : Data)
    (tc : FSChildren) (r : NRec) (e : String),
    WFC tp tc → 1 ≤ tp.length → r.path.take tp.length = tp →
    r.path.length - tp.length ≤ fuel + 1 →
    FSTree.insertAux fuel (.mk tp td tc) r = .error e →
    e = "insert into node" := by
  intro fuel
  induction fuel with
  | zero =>
    intro tp td tc r e hwf hl hpref hb h
    by_cases h0 : tp = r.path
    · rw [insertAux_rule1 0 td tc h0] at h
      exact Except.noConfusion h
    · have hL := prefix_ne_len hpref (fun hh => h0 hh.symm)
      cases hpar : parentPath r.path with
      | none =>
        rw [parentPath_of_two (by omega)] at hpar
        exact Option.noConfusion hpar
      | some par =>
        by_cases hp : tp = par
        · subst hp
          rw [insertAux_rule2 0 td tc h0 hpar] at h
          exact Except.noConfusion h
        · have := deep_len hpref h0 hpar hp
          omega
  | succ f ih =>
    intro tp td tc r e hwf hl hpref hb h
    by_cases h0 : tp = r.path
    · rw [insertAux_rule1 (f + 1) td tc h0] at h
      exact Except.noConfusion h
    · have hL := prefix_ne_len hpref (fun hh => h0 hh.symm)
      cases hpar : parentPath r.path with
      | none =>
        rw [parentPath_of_two (by omega)] at hpar
        exact Option.noConfusion hpar
      | some par =>
        by_cases hp : tp = par
        · subst hp
          rw [insertAux_rule2 (f + 1) td tc h0 hpar] at h
          exact Except.noConfusion h
        · have hdeep := deep_len hpref h0 hpar hp
          rw [insertAux_rule3 f td tc h0 hpar hp] at h
          obtain ⟨hkl, hkt, hkk⟩ := key_facts hpref (by omega)
          cases ho : (childLookup (r.path.take (tp.length + 1)) tc).getD
              (.Dir (.mk (r.path.take (tp.length + 1)) default .nil)) with
          | Node d =>
            rw [descend_obj_node _ tp td ho] at h
            exact (Except.error.inj h).symm
          | Dir sub =>
            rw [descend_obj_dir _ tp td ho] at h
            obtain ⟨sd, scc, rfl, hwfs⟩ := getD_WF hwf ho
            cases hi : FSTree.insertAux f (.mk (r.path.take (tp.length + 1))
                sd scc) r with
            | error e2 =>
              rw [hi] at h
              replace h : Except.error e2 = (.error e : Except String FSTree)
                := h
              rw [← Except.error.inj h]
              exact ih (r.path.take (tp.length + 1)) sd scc r e2 hwfs
                (by omega) (by rw [hkl]) (by rw [hkl]; omega) hi
            | ok t3 =>
              rw [hi] at h
              replace h : Except.ok (FSTree.mk tp td (childUpsert
                  (r.path.take (tp.length + 1)) (.Dir t3) tc))
                = (.error e : Except String FSTree) := h
              exact Except.noConfusion h

/-! #### Commuting two inserts -/

/-- Two successive inserts (two iterations of the `ncdu::sum` loop). -/
def insert2 (f1 f2 : Nat) (t : FSTree) (r1 r2 : NRec) :
    Except String FSTree :=
  match FSTree.insertAux f1 t r1 with
  | .error e => .error e
  | .ok u => FSTree.insertAux f2 u r2

/-- Commutation, case 1: the first record is the node's own path (rule 1).
Its data overwrite neither touches the children nor is read back by the
other insert. -/
theorem comm_own {f1 f2 : Nat} {tp : PathC} {td : Data} {tc : FSChildren}
    {r1 r2 : NRec} (h0 : r1.path = tp) (hne : r1.path ≠ r2.path) :
    insert2 f1 f2 (.mk tp td tc) r1 r2 =
      insert2 f2 f1 (.mk tp td tc) r2 r1 := by
  subst h0
  unfold insert2
  rw [insertAux_rule1 f1 td tc rfl]
  show FSTree.insertAux f2 (.mk r1.path r1.data tc) r2 = _
  rw [insertAux_data_indep f2 r1.path r1.data td tc hne]
  cases h2 : FSTree.insertAux f2 (.mk r1.path td tc) r2 with
  | error e => rfl
  | ok u =>
    obtain ⟨dd, cc, rfl⟩ := insertAux_path h2
    show _ = FSTree.insertAux f1 (.mk r1.path dd cc) r1
    rw [insertAux_rule1 f1 dd cc rfl]
    rfl

/-- Commutation, case 2: both records are direct children (rule 2 twice);
distinct keys update independent entries of the children map. -/
theorem comm_dc_dc {f1 f2 : Nat} {tp : PathC} {td : Data} {tc : FSChildren}
    {r1 r2 : NRec} (hne1 : tp ≠ r1.path) (hne2 : tp ≠ r2.path)
    (hpar1 : parentPath r1.path = some tp)
    (hpar2 : parentPath r2.path = some tp)
    (hnep : r1.path ≠ r2.path) :
    insert2 f1 f2 (.mk tp td tc) r1 r2 =
      insert2 f2 f1 (.mk tp td tc) r2 r1 := by
  unfold insert2
  rw [insertAux_rule2 f1 td tc hne1 hpar1,
      insertAux_rule2 f2 td tc hne2 hpar2]
  show FSTree.insertAux f2 (.mk tp td (insertDirect r1 tc)) r2 =
    FSTree.insertAux f1 (.mk tp td (insertDirect r2 tc)) r1
  rw [insertAux_rule2 f2 td _ hne2 hpar2, insertAux_rule2 f1 td _ hne1 hpar1,
      insertDirect_comm (fun h => hnep h.symm)]

/-- Commutation, case 3: a direct child (rule 2) against a deeper record
(rule 3) whose routing key differs from the child's key. -/
theorem comm_dc_deep_diff {f1 b : Nat} {tp : PathC} {td : Data}
    {tc : FSChildren} {r1 r2 : NRec}
    (hne1 : tp ≠ r1.path) (hpar1 : parentPath r1.path = some tp)
    (hne2 : tp ≠ r2.path) {par2 : PathC}
    (hpar2 : parentPath r2.path = some par2) (hp2 : tp ≠ par2)
    (hk : r2.path.take (tp.length + 1) ≠ r1.path) :
    insert2 f1 (b + 1) (.mk tp td tc) r1 r2 =
      insert2 (b + 1) f1 (.mk tp td tc) r2 r1 := by
  unfold insert2
  rw [insertAux_rule2 f1 td tc hne1 hpar1,
      insertAux_rule3 b td tc hne2 hpar2 hp2]
  show FSTree.insertAux (b + 1) (.mk tp td (insertDirect r1 tc)) r2 = _
  rw [insertAux_rule3 b td _ hne2 hpar2 hp2]
  cases ho : (childLookup (r2.path.take (tp.length + 1)) tc).getD
      (.Dir (.mk (r2.path.take (tp.length + 1)) default .nil)) with
  | Node d =>
    rw [descend_obj_node _ tp td (show _ = FSObj.Node d by
          rw [childLookup_insertDirect_ne hk]; exact ho),
        descend_obj_node _ tp td ho]
  | Dir sub =>
    rw [descend_obj_dir _ tp td (show _ = FSObj.Dir sub by
          rw [childLookup_insertDirect_ne hk]; exact ho),
        descend_obj_dir _ tp td ho]
    cases h2 : FSTree.insertAux b sub r2 with
    | error e => rfl
    | ok t2 =>
      show _ = FSTree.insertAux f1 (.mk tp td (childUpsert
          (r2.path.take (tp.length + 1)) (.Dir t2) tc)) r1
      rw [insertAux_rule2 f1 td _ hne1 hpar1,
          insertDirect_upsert_comm (fun h => hk h.symm)]
      rfl

/-- Commutation, case 4: a direct child (rule 2) against a deeper record
(rule 3) routed through that same child.  Needs the ancestor record to be
a directory record: a file record would create a `Node` and break the
deeper insert in one order only. -/
theorem comm_dc_deep_same {f1 b : Nat} {tp : PathC} {td : Data}
    {tc : FSChildren} {r1 r2 : NRec}
    (hwf : WFC tp tc)
    (hne1 : tp ≠ r1.path) (hpar1 : parentPath r1.path = some tp)
    (hne2 : tp ≠ r2.path) {par2 : PathC}
    (hpar2 : parentPath r2.path = some par2) (hp2 : tp ≠ par2)
    (hnep : r1.path ≠ r2.path)
    (hk : r2.path.take (tp.length + 1) = r1.path)
    (hdir : startsWithS "d" r1.mode = true) :
    insert2 f1 (b + 1) (.mk tp td tc) r1 r2 =
      insert2 (b + 1) f1 (.mk tp td tc) r2 r1 := by
  unfold insert2
  rw [insertAux_rule2 f1 td tc hne1 hpar1,
      insertAux_rule3 b td tc hne2 hpar2 hp2]
  show FSTree.insertAux (b + 1) (.mk tp td (insertDirect r1 tc)) r2 = _
  rw [insertAux_rule3 b td _ hne2 hpar2 hp2, hk]
  cases hlk : childLookup r1.path tc with
  | none =>
    have hsel : childLookup r1.path (insertDirect r1 tc) =
        some (.Dir (.mk r1.path r1.data .nil)) := by
      rw [childLookup_insertDirect_self, hlk]
      show some (if startsWithS "d" r1.mode
        then FSObj.Dir (.mk r1.path r1.data .nil) else .Node r1.data) = _
      rw [hdir, if_pos rfl]
    rw [descend_obj_dir _ tp td (show _ = FSObj.Dir (.mk r1.path r1.data
          .nil) by rw [hsel]; rfl),
        descend_obj_dir _ tp td (show _ = FSObj.Dir (.mk r1.path default
          .nil) by rw [hlk]; rfl)]
    rw [insertAux_data_indep b r1.path r1.data default .nil hnep]
    cases h2 : FSTree.insertAux b (.mk r1.path default .nil) r2 with
    | error e => rfl
    | ok t2 =>
      obtain ⟨dd, cc, rfl⟩ := insertAux_path h2
      show Except.ok (FSTree.mk tp td (childUpsert r1.path
          (.Dir (.mk r1.path r1.data cc)) (insertDirect r1 tc))) =
        FSTree.insertAux f1 (.mk tp td (childUpsert r1.path
          (.Dir (.mk r1.path dd cc)) tc)) r1
      rw [insertAux_rule2 f1 td _ hne1 hpar1]
      unfold insertDirect
      rw [childLookup_upsert_self, childUpsert_upsert_self,
          childUpsert_upsert_self]
      rfl
  | some o =>
    obtain ⟨_, _, hwo⟩ := WFC_lookup tc hwf hlk
    cases o with
    | Dir t =>
      cases t with
      | mk cp cd cc0 =>
        cases hwo with
        | dir _ _ hpath hwt =>
          replace hpath : cp = r1.path := hpath
          subst hpath
          have hsel : childLookup r1.path (insertDirect r1 tc) =
              some (.Dir (.mk r1.path r1.data cc0)) := by
            rw [childLookup_insertDirect_self, hlk]
            rfl
          rw [descend_obj_dir _ tp td (show _ = FSObj.Dir (.mk r1.path
                r1.data cc0) by rw [hsel]; rfl),
              descend_obj_dir _ tp td (show _ = FSObj.Dir (.mk r1.path
                cd cc0) by rw [hlk]; rfl)]
          rw [insertAux_data_indep b r1.path r1.data cd cc0 hnep]
          cases h2 : FSTree.insertAux b (.mk r1.path cd cc0) r2 with
          | error e => rfl
          | ok t2 =>
            obtain ⟨dd, cc, rfl⟩ := insertAux_path h2
            show Except.ok (FSTree.mk tp td (childUpsert r1.path
                (.Dir (.mk r1.path r1.data cc)) (insertDirect r1 tc))) =
              FSTree.insertAux f1 (.mk tp td (childUpsert r1.path
                (.Dir (.mk r1.path dd cc)) tc)) r1
            rw [insertAux_rule2 f1 td _ hne1 hpar1]
            unfold insertDirect
            rw [childLookup_upsert_self, childUpsert_upsert_self,
                childUpsert_upsert_self]
            rfl
    | Node nd =>
      have hsel : childLookup r1.path (insertDirect r1 tc) =
          some (.Node r1.data) := by
        rw [childLookup_insertDirect_self, hlk]
        rfl
      rw [descend_obj_node _ tp td (show _ = FSObj.Node r1.data by
            rw [hsel]; rfl),
          descend_obj_node _ tp td (show _ = FSObj.Node nd by
            rw [hlk]; rfl)]

/-- Commutation, case 5: two deep records (rule 3 twice) routed through
distinct keys descend into independent subtrees.  Both orders fail exactly
when either descent hits a `Node`, and the only possible error text is the
routing error, so even the double-failure case agrees. -/
theorem comm_deep_deep_diff {a b : Nat} {tp : PathC} {td : Data}
    {tc : FSChildren} {r1 r2 : NRec}
    (hwf : WFC tp tc) (hl : 1 ≤ tp.length)
    (hpref1 : r1.path.take tp.length = tp)
    (hpref2 : r2.path.take tp.length = tp)
    (hne1 : tp ≠ r1.path) (hne2 : tp ≠ r2.path)
    {par1 par2 : PathC}
    (hpar1 : parentPath r1.path = some par1) (hp1 : tp ≠ par1)
    (hpar2 : parentPath r2.path = some par2) (hp2 : tp ≠ par2)
    (hb1 : r1.path.length - tp.length ≤ (a + 1) + 1)
    (hb2 : r2.path.length - tp.length ≤ (b + 1) + 1)
    (hkne : r1.path.take (tp.length + 1) ≠ r2.path.take (tp.length + 1)) :
    insert2 (a + 1) (b + 1) (.mk tp td tc) r1 r2 =
      insert2 (b + 1) (a + 1) (.mk tp td tc) r2 r1 := by
  have hL1 := prefix_ne_len hpref1 (fun hh => hne1 hh.symm)
  have hL2 := prefix_ne_len hpref2 (fun hh => hne2 hh.symm)
  obtain ⟨hkl1, hkt1, hkk1⟩ := key_facts hpref1 (by omega)
  obtain ⟨hkl2, hkt2, hkk2⟩ := key_facts hpref2 (by omega)
  unfold insert2
  rw [insertAux_rule3 a td tc hne1 hpar1 hp1,
      insertAux_rule3 b td tc hne2 hpar2 hp2]
  cases ho1 : (childLookup (r1.path.take (tp.length + 1)) tc).getD
      (.Dir (.mk (r1.path.take (tp.length + 1)) default .nil)) with
  | Node d1 =>
    rw [descend_obj_node _ tp td ho1]
    cases ho2 : (childLookup (r2.path.take (tp.length + 1)) tc).getD
        (.Dir (.mk (r2.path.take (tp.length + 1)) default .nil)) with
    | Node d2 =>
      rw [descend_obj_node _ tp td ho2]
    | Dir sub2 =>
      rw [descend_obj_dir _ tp td ho2]
      obtain ⟨sd2, scc2, rfl, hwf2⟩ := getD_WF hwf ho2
      cases h2 : FSTree.insertAux b
          (.mk (r2.path.take (tp.length + 1)) sd2 scc2) r2 with
      | error e2 =>
        have he2 : e2 = "insert into node" :=
          insertAux_error b _ sd2 scc2 r2 e2 hwf2 (by rw [hkl2]; omega)
            (by rw [hkl2]) (by rw [hkl2]; omega) h2
        rw [he2]
        rfl
      | ok t2 =>
        obtain ⟨dd2, cc2, rfl⟩ := insertAux_path h2
        show _ = FSTree.insertAux (a + 1) (.mk tp td (childUpsert
            (r2.path.take (tp.length + 1))
            (.Dir (.mk (r2.path.take (tp.length + 1)) dd2 cc2)) tc)) r1
        rw [insertAux_rule3 a td _ hne1 hpar1 hp1,
            descend_obj_node _ tp td (show _ = FSObj.Node d1 by
              rw [childLookup_upsert_ne hkne _ tc]; exact ho1)]
  | Dir sub1 =>
    rw [descend_obj_dir _ tp td ho1]
    obtain ⟨sd1, scc1, rfl, hwf1⟩ := getD_WF hwf ho1
    cases ho2 : (childLookup (r2.path.take (tp.length + 1)) tc).getD
        (.Dir (.mk (r2.path.take (tp.length + 1)) default .nil)) with
    | Node d2 =>
      rw [descend_obj_node _ tp td ho2]
      cases h1 : FSTree.insertAux a
          (.mk (r1.path.take (tp.length + 1)) sd1 scc1) r1 with
      | error e1 =>
        have he1 : e1 = "insert into node" :=
          insertAux_error a _ sd1 scc1 r1 e1 hwf1 (by rw [hkl1]; omega)
            (by rw [hkl1]) (by rw [hkl1]; omega) h1
        rw [he1]
        rfl
      | ok t1 =>
        obtain ⟨dd1, cc1, rfl⟩ := insertAux_path h1
        show FSTree.insertAux (b + 1) (.mk tp td (childUpsert
            (r1.path.take (tp.length + 1))
            (.Dir (.mk (r1.path.take (tp.length + 1)) dd1 cc1)) tc)) r2 = _
        rw [insertAux_rule3 b td _ hne2 hpar2 hp2,
            descend_obj_node _ tp td (show _ = FSObj.Node d2 by
              rw [childLookup_upsert_ne (fun h => hkne h.symm) _ tc]
              exact ho2)]
    | Dir sub2 =>
      rw [descend_obj_dir _ tp td ho2]
      obtain ⟨sd2, scc2, rfl, hwf2⟩ := getD_WF hwf ho2
      cases h1 : FSTree.insertAux a
          (.mk (r1.path.take (tp.length + 1)) sd1 scc1) r1 with
      | error e1 =>
        have he1 : e1 = "insert into node" :=
          insertAux_error a _ sd1 scc1 r1 e1 hwf1 (by rw [hkl1]; omega)
            (by rw [hkl1]) (by rw [hkl1]; omega) h1
        cases h2 : FSTree.insertAux b
            (.mk (r2.path.take (tp.length + 1)) sd2 scc2) r2 with
        | error e2 =>
          have he2 : e2 = "insert into node" :=
            insertAux_error b _ sd2 scc2 r2 e2 hwf2 (by rw [hkl2]; omega)
              (by rw [hkl2]) (by rw [hkl2]; omega) h2
          rw [he1, he2]
          rfl
        | ok t2 =>
          obtain ⟨dd2, cc2, rfl⟩ := insertAux_path h2
          show _ = FSTree.insertAux (a + 1) (.mk tp td (childUpsert
              (r2.path.take (tp.length + 1))
              (.Dir (.mk (r2.path.take (tp.length + 1)) dd2 cc2)) tc)) r1
          rw [insertAux_rule3 a td _ hne1 hpar1 hp1,
              descend_obj_dir _ tp td (show _ = FSObj.Dir (.mk
                (r1.path.take (tp.length + 1)) sd1 scc1) by
                rw [childLookup_upsert_ne hkne _ tc]; exact ho1),
              h1]
          rfl
      | ok t1 =>
        obtain ⟨dd1, cc1, rfl⟩ := insertAux_path h1
        show FSTree.insertAux (b + 1) (.mk tp td (childUpsert
            (r1.path.take (tp.length + 1))
            (.Dir (.mk (r1.path.take (tp.length + 1)) dd1 cc1)) tc)) r2 = _
        rw [insertAux_rule3 b td _ hne2 hpar2 hp2,
            descend_obj_dir _ tp td (show _ = FSObj.Dir (.mk
              (r2.path.take (tp.length + 1)) sd2 scc2) by
              rw [childLookup_upsert_ne (fun h => hkne h.symm) _ tc]
              exact ho2)]
        cases h2 : FSTree.insertAux b
            (.mk (r2.path.take (tp.length + 1)) sd2 scc2) r2 with
        | error e2 => rfl
        | ok t2 =>
          obtain ⟨dd2, cc2, rfl⟩ := insertAux_path h2
          show Except.ok (FSTree.mk tp td (childUpsert
              (r2.path.take (tp.length + 1))
              (.Dir (.mk (r2.path.take (tp.length + 1)) dd2 cc2))
              (childUpsert (r1.path.take (tp.length + 1))
                (.Dir (.mk (r1.path.take (tp.length + 1)) dd1 cc1)) tc))) =
            FSTree.insertAux (a + 1) (.mk tp td (childUpsert
              (r2.path.take (tp.length + 1))
              (.Dir (.mk (r2.path.take (tp.length + 1)) dd2 cc2)) tc)) r1
          rw [insertAux_rule3 a td _ hne1 hpar1 hp1,
              descend_obj_dir _ tp td (show _ = FSObj.Dir (.mk
                (r1.path.take (tp.length + 1)) sd1 scc1) by
                rw [childLookup_upsert_ne hkne _ tc]; exact ho1),
              h1]
          show _ = Except.ok (FSTree.mk tp td (childUpsert
              (r1.path.take (tp.length + 1))
              (.Dir (.mk (r1.path.take (tp.length + 1)) dd1 cc1))
              (childUpsert (r2.path.take (tp.length + 1))
                (.Dir (.mk (r2.path.take (tp.length + 1)) dd2 cc2)) tc)))
          rw [childUpsert_comm (fun h => hkne h.symm) (FSObj.Dir (.mk
              (r2.path.take (tp.length + 1)) dd2 cc2)) (FSObj.Dir (.mk
              (r1.path.take (tp.length + 1)) dd1 cc1)) tc]

/-- The two-insert sequence through a shared rule-3 routing key is the
two-insert sequence inside the shared subtree, wrapped by the common
children update. -/
theorem descend_insert2 {a b : Nat} {tp k : PathC} {td : Data}
    {tc : FSChildren} {r1 r2 : NRec} {sd : Data} {scc : FSChildren}
    (hne2 : tp ≠ r2.path) {par2 : PathC}
    (hpar2 : parentPath r2.path = some par2) (hp2 : tp ≠ par2)
    (hk2 : r2.path.take (tp.length + 1) = k) :
    (match (FSTree.insertAux a (.mk k sd scc) r1).map
        (fun t2 => FSTree.mk tp td (childUpsert k (.Dir t2) tc)) with
     | .error e => (.error e : Except String FSTree)
     | .ok u => FSTree.insertAux (b + 1) u r2) =
    (insert2 a b (.mk k sd scc) r1 r2).map
      (fun t2 => FSTree.mk tp td (childUpsert k (.Dir t2) tc)) := by
  unfold insert2
  cases h1 : FSTree.insertAux a (.mk k sd scc) r1 with
  | error e => rfl
  | ok t1 =>
    obtain ⟨dd, cc, rfl⟩ := insertAux_path h1
    show FSTree.insertAux (b + 1) (.mk tp td (childUpsert k
        (.Dir (.mk k dd cc)) tc)) r2 = _
    rw [insertAux_rule3 b td _ hne2 hpar2 hp2, hk2,
        descend_obj_dir _ tp td (show _ = FSObj.Dir (.mk k dd cc) by
          rw [childLookup_upsert_self]; rfl)]
    exact congrArg (fun g => Except.map g
        (FSTree.insertAux b (.mk k dd cc) r2))
      (funext fun t2 => by rw [childUpsert_upsert_self])

/-- Compatibility of two records for order-independent insertion: distinct
paths, and whenever one record's path is an ancestor (proper prefix) of
the other's, the ancestor record is a directory record. -/
def RecPair (r1 r2 : NRec) : Prop :=
  r1.path ≠ r2.path ∧
  (r1.path = r2.path.take r1.path.length →
    startsWithS "d" r1.mode = true) ∧
  (r2.path = r1.path.take r2.path.length →
    startsWithS "d" r2.mode = true)

theorem RecPair.symm {r1 r2 : NRec} (h : RecPair r1 r2) : RecPair r2 r1 :=
  ⟨fun hh => h.1 hh.symm, h.2.2, h.2.1⟩

instance (r1 r2 : NRec) : Decidable (RecPair r1 r2) := by
  unfold RecPair
  infer_instance

/-- Two compatible inserts below a well-formed node commute, given enough
fuel on both sides. -/
theorem insert2_comm : ∀ (n f1 f2 : Nat) (tp : PathC) (td : Data)
    (tc : FSChildren) (r1 r2 : NRec),
    WFC tp tc → 1 ≤ tp.length →
    r1.path.take tp.length = tp → r2.path.take tp.length = tp →
    RecPair r1 r2 →
    r1.path.length - tp.length ≤ f1 + 1 →
    r2.path.length - tp.length ≤ f2 + 1 →
    (r1.path.length - tp.length) + (r2.path.length - tp.length) ≤ n →
    insert2 f1 f2 (.mk tp td tc) r1 r2 =
      insert2 f2 f1 (.mk tp td tc) r2 r1 := by
  intro n
  induction n with
  | zero =>
    intro f1 f2 tp td tc r1 r2 hwf hl hpref1 hpref2 hrp hb1 hb2 hsum
    have h0 : r1.path = tp := by
      have hle := prefix_len_le hpref1
      rw [← hpref1, List.take_of_length_le (by omega)]
    exact comm_own h0 hrp.1
  | succ n ih =>
    intro f1 f2 tp td tc r1 r2 hwf hl hpref1 hpref2 hrp hb1 hb2 hsum
    obtain ⟨hnep, hanc12, hanc21⟩ := hrp
    by_cases h01 : r1.path = tp
    · exact comm_own h01 hnep
    by_cases h02 : r2.path = tp
    · exact (comm_own h02 (fun h => hnep h.symm)).symm
    have hL1 := prefix_ne_len hpref1 h01
    have hL2 := prefix_ne_len hpref2 h02
    by_cases hg1 : r1.path.length = tp.length + 1
    · have hpar1 : parentPath r1.path = some tp := parent_root hl hpref1 hg1
      by_cases hg2 : r2.path.length = tp.length + 1
      · exact comm_dc_dc (fun h => h01 h.symm) (fun h => h02 h.symm)
          hpar1 (parent_root hl hpref2 hg2) hnep
      · obtain ⟨par2, hpar2, hp2⟩ := parent_deep hl hpref2 (by omega)
        cases f2 with
        | zero => exfalso; omega
        | succ b =>
          by_cases hk : r2.path.take (tp.length + 1) = r1.path
          · exact comm_dc_deep_same hwf (fun h => h01 h.symm) hpar1
              (fun h => h02 h.symm) hpar2 hp2 hnep hk
              (hanc12 (by rw [hg1]; exact hk.symm))
          · exact comm_dc_deep_diff (fun h => h01 h.symm) hpar1
              (fun h => h02 h.symm) hpar2 hp2 hk
    · obtain ⟨par1, hpar1, hp1⟩ := parent_deep hl hpref1 (by omega)
      cases f1 with
      | zero => exfalso; omega
      | succ a =>
        by_cases hg2 : r2.path.length = tp.length + 1
        · have hpar2 : parentPath r2.path = some tp :=
            parent_root hl hpref2 hg2
          by_cases hk : r1.path.take (tp.length + 1) = r2.path
          · exact (comm_dc_deep_same hwf (fun h => h02 h.symm) hpar2
              (fun h => h01 h.symm) hpar1 hp1 (fun h => hnep h.symm) hk
              (hanc21 (by rw [hg2]; exact hk.symm))).symm
          · exact (comm_dc_deep_diff (fun h => h02 h.symm) hpar2
              (fun h => h01 h.symm) hpar1 hp1 hk).symm
        · obtain ⟨par2, hpar2, hp2⟩ := parent_deep hl hpref2 (by omega)
          cases f2 with
          | zero => exfalso; omega
          | succ b =>
            obtain ⟨hkl1, hkt1, hkk1⟩ := key_facts hpref1 (by omega)
            obtain ⟨hkl2, hkt2, hkk2⟩ := key_facts hpref2 (by omega)
            by_cases hk : r1.path.take (tp.length + 1) =
                r2.path.take (tp.length + 1)
            · -- both records route through the same child: recurse
              unfold insert2
              rw [insertAux_rule3 a td tc (fun h => h01 h.symm) hpar1 hp1,
                  insertAux_rule3 b td tc (fun h => h02 h.symm) hpar2 hp2,
                  ← hk]
              cases ho : (childLookup (r1.path.take (tp.length + 1))
                  tc).getD (.Dir (.mk (r1.path.take (tp.length + 1))
                    default .nil)) with
              | Node d =>
                rw [descend_obj_node _ tp td ho, descend_obj_node _ tp td ho]
              | Dir sub =>
                rw [descend_obj_dir _ tp td ho, descend_obj_dir _ tp td ho]
                obtain ⟨sd, scc, rfl, hwfs⟩ := getD_WF hwf ho
                refine Eq.trans (Eq.trans (descend_insert2
                    (fun h => h02 h.symm) hpar2 hp2 hk.symm) ?_)
                  (descend_insert2 (fun h => h01 h.symm) hpar1 hp1 rfl).symm
                rw [ih a b (r1.path.take (tp.length + 1)) sd scc r1 r2 hwfs
                  (by rw [hkl1]; omega) (by rw [hkl1])
                  (by rw [hkl1]; exact hk.symm)
                  ⟨hnep, hanc12, hanc21⟩
                  (by rw [hkl1]; omega) (by rw [hkl1]; omega)
                  (by rw [hkl1]; omega)]
            · exact comm_deep_deep_diff hwf hl hpref1 hpref2
                (fun h => h01 h.symm) (fun h => h02 h.symm)
                hpar1 hp1 hpar2 hp2 hb1 hb2 hk

/-- Splitting the record fold over its first two records. -/
theorem insertAll_cons2 (t : FSTree) (r1 r2 : NRec) (l : List NRec) :
    insertAll t (r1 :: r2 :: l) =
      (match insert2 (r1.path.length + 1) (r2.path.length + 1) t r1 r2 with
       | .error e => .error e
       | .ok v => insertAll v l) := by
  unfold insert2
  show (match FSTree.insert t r1 with
    | .error e => (.error e : Except String FSTree)
    | .ok u => insertAll u (r2 :: l)) = _
  unfold FSTree.insert
  cases h1 : FSTree.insertAux (r1.path.length + 1) t r1 with
  | error e => rfl
  | ok u =>
    show (match FSTree.insert u r2 with
      | .error e => (.error e : Except String FSTree)
      | .ok v => insertAll v l) =
      (match FSTree.insertAux (r2.path.length + 1) u r2 with
      | .error e => (.error e : Except String FSTree)
      | .ok v => insertAll v l)
    unfold FSTree.insert
    cases h2 : FSTree.insertAux (r2.path.length + 1) u r2 with
    | error e => rfl
    | ok v => rfl

/-- Folding a record list into a well-formed node is invariant under
permutation, for pairwise-compatible records below the node. -/
theorem insertAll_perm {rs1 rs2 : List NRec} (hperm : rs1.Perm rs2) :
    ∀ (tp : PathC) (td : Data) (tc : FSChildren),
    WFC tp tc → 1 ≤ tp.length →
    (∀ r ∈ rs1, r.path.take tp.length = tp) →
    rs1.Pairwise RecPair →
    insertAll (.mk tp td tc) rs1 = insertAll (.mk tp td tc) rs2 := by
  induction hperm with
  | nil => intro tp td tc _ _ _ _; rfl
  | cons x h12 ih =>
    intro tp td tc hwf hl hpref hpw
    unfold insertAll
    cases h1 : FSTree.insert (.mk tp td tc) x with
    | error e => rfl
    | ok u =>
      obtain ⟨dd, cc, hu, hwc⟩ := insertAux_WF (x.path.length + 1)
        tp td tc x u hwf hl (hpref x (List.mem_cons_self x _)) h1
      subst hu
      exact ih tp dd cc hwc hl
        (fun r hr => hpref r (List.mem_cons_of_mem x hr))
        (List.pairwise_cons.mp hpw).2
  | swap x y l =>
    intro tp td tc hwf hl hpref hpw
    rw [insertAll_cons2, insertAll_cons2,
        insert2_comm ((y.path.length - tp.length) +
            (x.path.length - tp.length))
          (y.path.length + 1) (x.path.length + 1) tp td tc y x hwf hl
          (hpref y (by simp)) (hpref x (by simp))
          ((List.pairwise_cons.mp hpw).1 x (by simp))
          (by omega) (by omega) (Nat.le_refl _)]
  | trans h12 h23 ih1 ih2 =>
    intro tp td tc hwf hl hpref hpw
    rw [ih1 tp td tc hwf hl hpref hpw,
        ih2 tp td tc hwf hl (fun r hr => hpref r (h12.mem_iff.mpr hr))
          ((h12.pairwise_iff (fun h => h.symm)).mp hpw)]

/-- **C7, amended**: starting from a fresh root node (`FSTree::from(dir)`:
the scan root's path, default data, no children), inserting any record set
in any permutation yields identical results (the same tree, or the same
error), provided the records lie below the root, have pairwise distinct
paths, and every record whose path is a proper prefix of another record's
path is a directory record.  Without the last condition the claim fails:
`Mmdu.c7_counterexample` inserts a file record at `/d/a` and a file record
at `/d/a/x` in both orders and gets an error in exactly one of them. -/
theorem c7_amended (rootp : PathC) (d0 : Data) (rs1 rs2 : List NRec)
    (hroot : 1 ≤ rootp.length)
    (hperm : rs1.Perm rs2)
    (hpref : ∀ r ∈ rs1, r.path.take rootp.length = rootp)
    (hpair : rs1.Pairwise RecPair) :
    insertAll (.mk rootp d0 .nil) rs1 =
      insertAll (.mk rootp d0 .nil) rs2 :=
  insertAll_perm hperm rootp d0 .nil (WFC.nil rootp) hroot hpref hpair

def c7rA : NRec := ⟨["/", "d", "a"], "drwxr-xr-x", ⟨4096, 0, 1, 0⟩⟩

def c7rX : NRec := ⟨["/", "d", "a", "x"], "-rw-r--r--", ⟨512, 0, 1, 0⟩⟩

theorem c7_amended_witness :
    insertAll (.mk ["/", "d"] default .nil) [c7rA, c7rX] =
      insertAll (.mk ["/", "d"] default .nil) [c7rX, c7rA] :=
  c7_amended ["/", "d"] default [c7rA, c7rX] [c7rX, c7rA] (by decide)
    (List.Perm.swap c7rX c7rA []) (by decide) (by decide)

end Mmdu
